import Mathlib

/-
  Verification development for the lyn compiler middle-end
  (src/lyn/compiler/ir.py, ssa_constr.py, opt/lvn.py, opt/dia.py,
  opt/manager.py).

  The Python object graph is embedded shallowly:
  * instructions live in an arena (a list indexed by allocation order);
    object identity is arena index, Python `==` is the recursive
    structural equality `pyEq` below;
  * every mutating method becomes a function `... → Option State`,
    where `none` models a raised exception (assert failure, KeyError,
    ValueError, AttributeError) or exhausted recursion fuel;
  * Python's `x in list` / `list.remove(x)` / `list.index(x)` compare
    each item to x with an identity shortcut first (RichCompareBool),
    then structural `==`; this is `pyMem` / `pyEraseE` / `pyIdxOf`.
-/

/-- The operation of a BinOp (ir.Op). -/
inductive Op
  | ADD | SUB | MUL | DIV | MOD | LSH | RSH
  | LT | GT | LE | GE | EQ | NQ
deriving DecidableEq

/-- Op.__str__: the lowercased name. -/
def Op.str : Op → String
  | .ADD => "add" | .SUB => "sub" | .MUL => "mul" | .DIV => "div"
  | .MOD => "mod" | .LSH => "lsh" | .RSH => "rsh" | .LT => "lt"
  | .GT => "gt" | .LE => "le" | .GE => "ge" | .EQ => "eq" | .NQ => "nq"

/-- Op.is_commutative. -/
def Op.isCommutative (o : Op) : Bool :=
  o = .ADD ∨ o = .MUL ∨ o = .EQ

/-- ir.Type: each member carries a bit count and a signed flag.
    The flags are exactly the source's: the I* members carry
    is_signed=False and the U* members is_signed=True. -/
inductive Ty
  | i1 | i8 | i16 | i32 | i64 | i128 | i256
  | u8 | u16 | u32 | u64 | u128 | u256
  | f32 | f64 | stringTy | void
deriving DecidableEq

/-- Type.bits (None for STRING and VOID). -/
def Ty.bits : Ty → Option Nat
  | .i1 => some 1 | .i8 => some 8 | .i16 => some 16 | .i32 => some 32
  | .i64 => some 64 | .i128 => some 128 | .i256 => some 256
  | .u8 => some 8 | .u16 => some 16 | .u32 => some 32 | .u64 => some 64
  | .u128 => some 128 | .u256 => some 256
  | .f32 => some 32 | .f64 => some 64
  | .stringTy => none | .void => none

/-- Type.is_signed, exactly as the source writes it. -/
def Ty.isSigned : Ty → Bool
  | .u8 | .u16 | .u32 | .u64 | .u128 | .u256 => true
  | _ => false

/-- Python truthiness of the bits field, as used by fold_instr's
    `param.instr_type.bits` test. -/
def Ty.bitsTruthy (t : Ty) : Bool :=
  match t.bits with
  | some b => b ≠ 0
  | none => false

/-- Instruction identity: index into the arena. -/
abbrev InstrId := Nat

/-- The variant payload of an instruction.  Operand fields hold arena
    indices; branch targets hold block names. -/
inductive IKind
  | const (value : String)
  | gconst (value : String) (constId : Nat)
  | binop (op : Op) (x y : InstrId)
  | cast (v : InstrId)
  | idc (v : InstrId)
  | fcall (callee : String) (params : List InstrId)
  | pcall (callee : String) (params : List InstrId)
  | phi (inputs : List InstrId)
  | ubr (target : String)
  | cbr (cond : InstrId) (tb fb : String)
  | ret (v : InstrId)
deriving DecidableEq

/-- One instruction object.  `name`, `ty`, `ssaId` are meaningful for
    assignment instructions (and `ty` also for Return); the
    non-assignment variants simply never read them.  `blk` is the
    owning block's name (None when detached). -/
structure Instr where
  name : String
  ty : Ty
  ssaId : Option Nat
  blk : Option String
  users : List InstrId
  usedVars : List InstrId
  kind : IKind
deriving DecidableEq

abbrev Arena := List Instr

/-- isinstance(_, AssignmentInstruction). -/
def IKind.isAssignment : IKind → Bool
  | .const _ | .gconst _ _ | .binop _ _ _ | .cast _ | .idc _
  | .fcall _ _ | .phi _ => true
  | _ => false

/-- isinstance(_, Call). -/
def IKind.isCall : IKind → Bool
  | .fcall _ _ | .pcall _ _ => true
  | _ => false

def IKind.isPhi : IKind → Bool
  | .phi _ => true
  | _ => false

/-- Instruction.opcode_name. -/
def IKind.opcodeName : IKind → String
  | .const _ => "const" | .gconst _ _ => "gconst"
  | .binop o _ _ => o.str | .cast _ => "cast" | .idc _ => "id"
  | .fcall _ _ => "fcall" | .pcall _ _ => "pcall" | .phi _ => "phi"
  | .ubr _ => "ubr" | .cbr _ _ _ => "cbr" | .ret _ => "return"

/-- Python's recursive structural `==` on instructions (the __eq__
    chains of ir.py), processed as a worklist of pairs so the
    recursion is structural in the fuel.  ssa_id is never compared.
    The identity shortcut `i = j` mirrors RichCompareBool; for
    distinct objects `x == x` evaluates to true anyway, so this is
    also extensionally faithful for direct `a == b` calls.  Fuel
    bounds the recursion (Python would recurse forever on cyclic
    distinct structures). -/
def pyEqW (f : Nat) (a : Arena) : List (InstrId × InstrId) → Bool :=
  match f with
  | 0 => fun l => l.isEmpty
  | f + 1 => fun l =>
    match l with
    | [] => true
    | (i, j) :: rest =>
      if i = j then pyEqW f a rest
      else match a[i]?, a[j]? with
      | some u, some v =>
        match u.kind, v.kind with
        | .const w1, .const w2 =>
          decide (u.name = v.name ∧ u.ty = v.ty ∧ w1 = w2)
            && pyEqW f a rest
        | .gconst w1 c1, .gconst w2 c2 =>
          decide (u.name = v.name ∧ u.ty = v.ty ∧ w1 = w2 ∧ c1 = c2)
            && pyEqW f a rest
        | .binop o1 x1 y1, .binop o2 x2 y2 =>
          decide (u.name = v.name ∧ u.ty = v.ty ∧ o1 = o2)
            && pyEqW f a ((x1, x2) :: (y1, y2) :: rest)
        | .cast v1, .cast v2 =>
          decide (u.name = v.name ∧ u.ty = v.ty)
            && pyEqW f a ((v1, v2) :: rest)
        | .idc v1, .idc v2 =>
          decide (u.name = v.name ∧ u.ty = v.ty)
            && pyEqW f a ((v1, v2) :: rest)
        | .fcall c1 p1, .fcall c2 p2 =>
          decide (c1 = c2 ∧ u.name = v.name ∧ u.ty = v.ty ∧
              p1.length = p2.length)
            && pyEqW f a (p1.zip p2 ++ rest)
        | .pcall c1 p1, .pcall c2 p2 =>
          decide (c1 = c2 ∧ p1.length = p2.length)
            && pyEqW f a (p1.zip p2 ++ rest)
        | .phi p1, .phi p2 =>
          decide (u.name = v.name ∧ u.ty = v.ty ∧ p1.length = p2.length)
            && pyEqW f a (p1.zip p2 ++ rest)
        | .ubr t1, .ubr t2 => decide (t1 = t2) && pyEqW f a rest
        | .cbr c1 t1 f1, .cbr c2 t2 f2 =>
          decide (t1 = t2 ∧ f1 = f2) && pyEqW f a ((c1, c2) :: rest)
        | .ret v1, .ret v2 =>
          decide (u.ty = v.ty) && pyEqW f a ((v1, v2) :: rest)
        | _, _ => false
      | _, _ => false

/-- Python `==` on two instructions. -/
def pyEq (f : Nat) (a : Arena) (i j : InstrId) : Bool :=
  pyEqW f a [(i, j)]

/-- Structural any (kernel-reducible). -/
def anyF (p : α → Bool) : List α → Bool
  | [] => false
  | x :: xs => p x || anyF p xs

/-- Structural filter (kernel-reducible). -/
def filterF (p : α → Bool) : List α → List α
  | [] => []
  | x :: xs => if p x then x :: filterF p xs else filterF p xs

/-- Membership test `x in l` on an instruction list (RichCompareBool
    against each item). -/
def pyMem (f : Nat) (a : Arena) (l : List InstrId) (x : InstrId) : Bool :=
  anyF (fun j => pyEq f a j x) l

/-- Drop the first element satisfying p (list.remove's splice). -/
def erasePF (p : α → Bool) : List α → List α
  | [] => []
  | x :: xs => if p x then xs else x :: erasePF p xs

/-- Index of the first element satisfying p. -/
def findIdxF (p : α → Bool) : List α → Option Nat
  | [] => none
  | x :: xs => if p x then some 0 else (findIdxF p xs).map (· + 1)

/-- `l.index(x)`: position of the first item comparing equal to x. -/
def pyIdxOf (f : Nat) (a : Arena) (l : List InstrId) (x : InstrId) :
    Option Nat :=
  findIdxF (fun j => pyEq f a j x) l

/-- `l.remove(x)`: drop the first item comparing equal to x;
    ValueError (none) when no item matches. -/
def pyEraseE (f : Nat) (a : Arena) (l : List InstrId) (x : InstrId) :
    Option (List InstrId) :=
  if pyMem f a l x then some (erasePF (fun j => pyEq f a j x) l) else none

/-- `list.insert(i, x)` (clamping, like Python). -/
def insertAt (l : List α) (i : Nat) (x : α) : List α :=
  l.take i ++ x :: l.drop i

/-- Replace the instruction stored at index i (no-op when absent). -/
def updI (a : Arena) (i : InstrId) (fn : Instr → Instr) : Arena :=
  match a[i]? with
  | some v => a.set i (fn v)
  | none => a

/-- Instruction.add_user. -/
def addUserA (f : Nat) (a : Arena) (target usr : InstrId) : Option Arena := do
  let t ← a[target]?
  if pyMem f a t.users usr then pure a
  else pure (updI a target (fun v => { v with users := v.users ++ [usr] }))

/-- Instruction.remove_user (assert the user is registered). -/
def removeUserA (f : Nat) (a : Arena) (target usr : InstrId) :
    Option Arena := do
  let t ← a[target]?
  if pyMem f a t.users usr then
    pure (updI a target
      (fun v => { v with users := erasePF (fun j => pyEq f a j usr) v.users }))
  else none

/-- Instruction.add_used_vars over a list of variables. -/
def addUsedVarsA (f : Nat) (a : Arena) (self : InstrId) :
    List InstrId → Option Arena
  | [] => pure a
  | v :: rest => do
    let s ← a[self]?
    let a1 := if pyMem f a s.usedVars v then a
      else updI a self (fun w => { w with usedVars := w.usedVars ++ [v] })
    let a2 ← addUserA f a1 v self
    addUsedVarsA f a2 self rest

/-- Instruction.remove_used_vars over a list of variables. -/
def removeUsedVarsA (f : Nat) (a : Arena) (self : InstrId) :
    List InstrId → Option Arena
  | [] => pure a
  | v :: rest => do
    let s ← a[self]?
    let vv ← a[v]?
    if vv.kind.isAssignment then
      if pyMem f a s.usedVars v then do
        let a1 := updI a self (fun w =>
          { w with usedVars := erasePF (fun j => pyEq f a j v) w.usedVars })
        let a2 ← removeUserA f a1 v self
        removeUsedVarsA f a2 self rest
      else none
    else none

/-- The mutating loop inside Instruction.replace_use:
    `for var in self.used_vars: if var is old: self.remove_used_vars(var)`.
    The list is iterated by a rising index while remove_used_vars shrinks
    it in place. -/
def ruBaseLoop (f : Nat) (a : Arena) (self old : InstrId) (i : Nat) :
    Option Arena :=
  match f with
  | 0 => none
  | f + 1 => do
    let s ← a[self]?
    match s.usedVars[i]? with
    | none => pure a
    | some v =>
      if v = old then do
        let a1 ← removeUsedVarsA f a self [old]
        ruBaseLoop f a1 self old (i + 1)
      else ruBaseLoop f a self old (i + 1)

/-- Instruction.replace_use (the base bookkeeping). -/
def replaceUseBase (f : Nat) (a : Arena) (self old new : InstrId) :
    Option Arena := do
  let oldI ← a[old]?
  let newI ← a[new]?
  if oldI.kind.isAssignment ∧ newI.kind.isAssignment then
    let s ← a[self]?
    if anyF (fun x => x = old) s.usedVars then do
      let a1 ← ruBaseLoop f a self old 0
      addUsedVarsA f a1 self [new]
    else none
  else none

/-- replace_use, with each subclass's operand-field update.  Const and
    Ubr raise; GlobalConst inherits the base version unchanged. -/
def replaceUseA (f : Nat) (a : Arena) (self old new : InstrId) :
    Option Arena := do
  let s ← a[self]?
  match s.kind with
  | .const _ => none
  | .ubr _ => none
  | .gconst _ _ => replaceUseBase f a self old new
  | .binop o x y => do
    let a1 ← replaceUseBase f a self old new
    let k := IKind.binop o (if x = old then new else x)
      (if y = old then new else y)
    pure (updI a1 self (fun w => { w with kind := k }))
  | .cast _ => do
    let a1 ← replaceUseBase f a self old new
    pure (updI a1 self (fun w => { w with kind := .cast new }))
  | .idc _ => do
    let a1 ← replaceUseBase f a self old new
    pure (updI a1 self (fun w => { w with kind := .idc new }))
  | .fcall c ps => do
    let a1 ← replaceUseBase f a self old new
    let k := IKind.fcall c (ps.map (fun p => if p = old then new else p))
    pure (updI a1 self (fun w => { w with kind := k }))
  | .pcall c ps => do
    let a1 ← replaceUseBase f a self old new
    let k := IKind.pcall c (ps.map (fun p => if p = old then new else p))
    pure (updI a1 self (fun w => { w with kind := k }))
  | .phi _ => do
    let a1 ← replaceUseBase f a self old new
    let s1 ← a1[self]?
    match s1.kind with
    | .phi ins1 => do
      let idx ← pyIdxOf f a1 ins1 old
      let ins2 := insertAt ins1 idx new
      let ins3 ← pyEraseE f a1 ins2 old
      pure (updI a1 self (fun w => { w with kind := .phi ins3 }))
    | _ => none
  | .cbr _ tb fb => do
    let a1 ← replaceUseBase f a self old new
    pure (updI a1 self (fun w => { w with kind := .cbr new tb fb }))
  | .ret _ => do
    let a1 ← replaceUseBase f a self old new
    pure (updI a1 self (fun w => { w with kind := .ret new }))

/-- The user-rewiring loop of Instruction.replace_by.  A None value
    trips replace_use's isinstance assert as soon as a user exists. -/
def replaceByLoop (f : Nat) (a : Arena) (self : InstrId)
    (value : Option InstrId) : List InstrId → Option Arena
  | [] => pure a
  | u :: rest => do
    match value with
    | some v => do
      let a1 ← replaceUseA f a u self v
      replaceByLoop f a1 self value rest
    | none => none

/-- Instruction.replace_by: rewire every user (snapshot of the user
    list), then drop this instruction's own used-vars. -/
def replaceByA (f : Nat) (a : Arena) (self : InstrId)
    (value : Option InstrId) : Option Arena := do
  let s ← a[self]?
  let a1 ← replaceByLoop f a self value s.users
  let s1 ← a1[self]?
  removeUsedVarsA f a1 self s1.usedVars

/-- Phi.add_input: the input must be an attached assignment. -/
def addInputA (f : Nat) (a : Arena) (self value : InstrId) :
    Option Arena := do
  let s ← a[self]?
  let vv ← a[value]?
  match s.kind with
  | .phi ins =>
    if vv.kind.isAssignment then
      if vv.blk.isSome then do
        let a1 := updI a self (fun w => { w with kind := .phi (ins ++ [value]) })
        addUsedVarsA f a1 self [value]
      else none
    else none
  | _ => none

/-- A value yielded by Instruction.operands: an SSA reference, a raw
    Op, a raw string payload, or a block reference. -/
inductive Operand
  | instr (i : InstrId)
  | opv (o : Op)
  | strv (s : String)
  | blockv (b : String)
deriving DecidableEq

/-- get_operand_at per variant (GlobalConst inherits the raising base;
    Phi's bound excludes the last input, as written). -/
def getOperandAtA (a : Arena) (i : InstrId) (idx : Nat) : Option Operand := do
  let s ← a[i]?
  match s.kind with
  | .const v => if idx = 0 then some (.strv v) else none
  | .gconst _ _ => none
  | .binop o x y =>
    if idx = 0 then some (.opv o)
    else if idx = 1 then some (.instr x)
    else if idx = 2 then some (.instr y) else none
  | .cast v => if idx = 0 then some (.instr v) else none
  | .idc v => if idx = 0 then some (.instr v) else none
  | .fcall c ps =>
    if idx = 0 then some (.strv c)
    else if idx ≤ ps.length then (ps[idx - 1]?).map .instr else none
  | .pcall c ps =>
    if idx = 0 then some (.strv c)
    else if idx ≤ ps.length then (ps[idx - 1]?).map .instr else none
  | .phi ins =>
    if idx + 1 < ins.length then (ins[idx]?).map .instr else none
  | .ubr t => if idx = 0 then some (.blockv t) else none
  | .cbr c tb fb =>
    if idx = 0 then some (.instr c)
    else if idx = 1 then some (.blockv tb)
    else if idx = 2 then some (.blockv fb) else none
  | .ret v => if idx = 0 then some (.instr v) else none

/-- operand_num per variant (GlobalConst inherits the raising base). -/
def operandNumA (k : IKind) : Option Nat :=
  match k with
  | .const _ => some 1
  | .gconst _ _ => none
  | .binop _ _ _ => some 3
  | .cast _ => some 1
  | .idc _ => some 1
  | .fcall _ ps => some (ps.length + 1)
  | .pcall _ ps => some (ps.length + 1)
  | .phi ins => some ins.length
  | .ubr _ => some 1
  | .cbr _ _ _ => some 3
  | .ret _ => some 1

/-- set_operand_at with an SSA-reference argument (the only shape the
    modelled passes produce).  Indices that would store an instruction
    into an Op / literal / block slot are outside the typed model. -/
def setOperandAtA (f : Nat) (a : Arena) (i : InstrId) (idx : Nat)
    (new : InstrId) : Option Arena := do
  let s ← a[i]?
  match s.kind with
  | .binop _ x y =>
    if idx = 1 then replaceUseA f a i x new
    else if idx = 2 then replaceUseA f a i y new else none
  | .cast v => if idx = 0 then replaceUseA f a i v new else none
  | .idc v => if idx = 0 then replaceUseA f a i v new else none
  | .fcall _ ps =>
    if 1 ≤ idx ∧ idx ≤ ps.length then do
      let p ← ps[idx - 1]?
      replaceUseA f a i p new
    else none
  | .pcall _ ps =>
    if 1 ≤ idx ∧ idx ≤ ps.length then do
      let p ← ps[idx - 1]?
      replaceUseA f a i p new
    else none
  | .phi ins =>
    if idx + 1 < ins.length then do
      let p ← ins[idx]?
      replaceUseA f a i p new
    else none
  | .cbr c _ _ => if idx = 0 then replaceUseA f a i c new else none
  | .ret v => if idx = 0 then replaceUseA f a i v new else none
  | _ => none

/-- A basic block: φ-list, instruction list, predecessor/successor
    lists (by block name; block names are unique per subroutine, and
    Block.__eq__ is modelled by name equality for distinct blocks). -/
structure BlockData where
  phis : List InstrId
  instrs : List InstrId
  preds : List String
  succs : List String
deriving DecidableEq

/-- The IR state the modelled passes act on: the instruction arena
    plus one subroutine's blocks (an insertion-ordered name map). -/
structure IR where
  arena : Arena
  blocks : List (String × BlockData)
deriving DecidableEq

def getBlock (ir : IR) (bn : String) : Option BlockData :=
  (ir.blocks.find? (fun p => p.1 = bn)).map (·.2)

def setBlock (ir : IR) (bn : String) (bd : BlockData) : IR :=
  { ir with blocks := ir.blocks.map (fun p => if p.1 = bn then (bn, bd) else p) }

/-- Block.add_instr: attach and append. -/
def addInstrB (ir : IR) (bn : String) (i : InstrId) : Option IR := do
  let bd ← getBlock ir bn
  let a1 := updI ir.arena i (fun w => { w with blk := some bn })
  pure (setBlock { ir with arena := a1 } bn
    { bd with instrs := bd.instrs ++ [i] })

/-- Block.add_phi_instr: only for φ's; attach and append to the φ-list. -/
def addPhiInstrB (ir : IR) (bn : String) (i : InstrId) : Option IR := do
  let bd ← getBlock ir bn
  let s ← ir.arena[i]?
  if s.kind.isPhi then
    let a1 := updI ir.arena i (fun w => { w with blk := some bn })
    pure (setBlock { ir with arena := a1 } bn
      { bd with phis := bd.phis ++ [i] })
  else none

/-- Block.replace_instr: the new instruction must be detached and
    unused; splice it in at the old one's position (found by
    structural ==), rewire all users, then remove the old one (also by
    structural ==). -/
def replaceInstrB (f : Nat) (ir : IR) (bn : String) (old new : InstrId) :
    Option IR := do
  let bd ← getBlock ir bn
  let n ← ir.arena[new]?
  if pyMem f ir.arena bd.instrs old then
    if n.users.isEmpty then
      if n.blk = none then do
        let a1 := updI ir.arena new (fun w => { w with blk := some bn })
        let idx ← pyIdxOf f a1 bd.instrs old
        let ir1 := setBlock { ir with arena := a1 } bn
          { bd with instrs := insertAt bd.instrs idx new }
        let a2 ← replaceByA f ir1.arena old (some new)
        let bd2 ← getBlock ir1 bn
        let l ← pyEraseE f a2 bd2.instrs old
        pure (setBlock { ir1 with arena := a2 } bn { bd2 with instrs := l })
      else none
    else none
  else none

/-- Block.remove_instr: only for unused instructions; detach, release
    its used-vars, splice it out (structural ==). -/
def removeInstrB (f : Nat) (ir : IR) (bn : String) (i : InstrId) :
    Option IR := do
  let bd ← getBlock ir bn
  let s ← ir.arena[i]?
  if pyMem f ir.arena bd.instrs i then
    if s.users.isEmpty then do
      let a1 := updI ir.arena i (fun w => { w with blk := none })
      let a2 ← removeUsedVarsA f a1 i s.usedVars
      let l ← pyEraseE f a2 bd.instrs i
      pure (setBlock { ir with arena := a2 } bn { bd with instrs := l })
    else none
  else none

mutual

/-- Block.add_pred / Block.add_succ: append, then register the reverse
    edge unless it is already present.  The mutual recursion stops at
    depth two because the just-appended entry satisfies the guard; the
    fuel argument makes that termination explicit. -/
def addPredB (f : Nat) (ir : IR) (self other : String) : Option IR :=
  match f with
  | 0 => none
  | f + 1 => do
    let bd ← getBlock ir self
    let ir1 := setBlock ir self { bd with preds := bd.preds ++ [other] }
    let od ← getBlock ir1 other
    if self ∈ od.succs then pure ir1
    else addSuccB f ir1 other self

/-- See addPredB. -/
def addSuccB (f : Nat) (ir : IR) (self other : String) : Option IR :=
  match f with
  | 0 => none
  | f + 1 => do
    let bd ← getBlock ir self
    let ir1 := setBlock ir self { bd with succs := bd.succs ++ [other] }
    let od ← getBlock ir1 other
    if self ∈ od.preds then pure ir1
    else addPredB f ir1 other self

end

/-- Insertion-ordered dict lookup. -/
def aGet (l : List (String × β)) (k : String) : Option β :=
  (l.find? (fun p => p.1 = k)).map (·.2)

/-- Insertion-ordered dict store (update in place or append). -/
def aSet (l : List (String × β)) (k : String) (v : β) : List (String × β) :=
  if anyF (fun p => p.1 = k) l then
    l.map (fun p => if p.1 = k then (k, v) else p)
  else l ++ [(k, v)]

/-- ssa_constr.SSADef: next-counter plus per-block current definition.
    A current definition can be None (remove_trivial_phi may store the
    replacement of a φ with no inputs). -/
structure SSADef where
  count : Nat
  currentDef : List (String × Option InstrId)
deriving DecidableEq

/-- The SSA builder's state. -/
structure SSAStore where
  vars : List (String × SSADef)
  incompletePhis : List (String × List (String × InstrId))
  sealed : List String
deriving DecidableEq

/-- A freshly constructed operandless Phi(name, VOID). -/
def mkPhi (v : String) : Instr :=
  ⟨v, .void, none, none, [], [], .phi []⟩

/-- SSA.new_variable: assign the next ssa_id for the name and record
    the instruction as the block's current definition. -/
def newVariableS (a : Arena) (st : SSAStore) (i : InstrId) (bn : String) :
    Option (Arena × SSAStore) := do
  let s ← a[i]?
  if s.kind.isAssignment then
    match aGet st.vars s.name with
    | none =>
      let vs := aSet st.vars s.name ⟨0, [(bn, some i)]⟩
      pure (updI a i (fun w => { w with ssaId := some 0 }),
        { st with vars := vs })
    | some d =>
      let d' : SSADef := ⟨d.count + 1, aSet d.currentDef bn (some i)⟩
      pure (updI a i (fun w => { w with ssaId := some (d.count + 1) }),
        { st with vars := aSet st.vars s.name d' })
  else none

/-- Result of the input scan in SSA.remove_trivial_phi. -/
inductive ScanRes
  | nontrivial
  | trivial (same : Option InstrId)
deriving DecidableEq

/-- The pure scan over phi.inputs in remove_trivial_phi: skip inputs
    equal to the running `same` or to the φ itself; two distinct other
    inputs make the φ non-trivial. -/
def scanSame (f : Nat) (a : Arena) (p : InstrId) :
    List InstrId → Option InstrId → ScanRes
  | [], same => .trivial same
  | x :: rest, same =>
    if (match same with
        | some s => pyEq f a x s
        | none => false) || pyEq f a x p then
      scanSame f a p rest same
    else
      match same with
      | some _ => .nontrivial
      | none => scanSame f a p rest (some x)

/-- The call graph of the SSA builder's mutually recursive operations,
    defunctionalized so a single fuel argument drives termination. -/
inductive SsaCall
  | grd (v bn : String)
  | grdRec (v bn : String)
  | addPhiOps (v : String) (p : InstrId)
  | phiLoop (v : String) (p : InstrId) (preds : List String)
  | remTriv (p : InstrId)
  | remTrivUsers (us : List InstrId)
deriving DecidableEq

/-- The SSA builder: get_reaching_def / get_reaching_def_recursive /
    add_phi_operands / remove_trivial_phi, one step of fuel per call.
    The result payload is the returned instruction (None models a
    Python None result). -/
def ssaRun : Nat → SsaCall → SSAStore → IR →
    Option (Option InstrId × SSAStore × IR)
  | 0, _, _, _ => none
  | f + 1, .grd v bn, st, ir => do
    let d ← aGet st.vars v
    match aGet d.currentDef bn with
    | some e => pure (e, st, ir)
    | none => ssaRun f (.grdRec v bn) st ir
  | f + 1, .grdRec v bn, st, ir =>
    if bn ∉ st.sealed then do
      let pid := ir.arena.length
      let ir1 := { ir with arena := ir.arena ++ [mkPhi v] }
      let ir2 ← addPhiInstrB ir1 bn pid
      let (a3, st3) ← newVariableS ir2.arena st pid bn
      let inner := aSet ((aGet st3.incompletePhis bn).getD []) v pid
      let st4 := { st3 with incompletePhis := aSet st3.incompletePhis bn inner }
      pure (some pid, st4, { ir2 with arena := a3 })
    else do
      let bd ← getBlock ir bn
      match bd.preds with
      | [p] => ssaRun f (.grd v p) st ir
      | _ => do
        let d ← aGet st.vars v
        let pid := ir.arena.length
        let ph := { mkPhi v with ssaId := some d.count }
        let ir1 := { ir with arena := ir.arena ++ [ph] }
        let ir2 ← addPhiInstrB ir1 bn pid
        let (a3, st3) ← newVariableS ir2.arena st pid bn
        ssaRun f (.addPhiOps v pid) st3 { ir2 with arena := a3 }
  | f + 1, .addPhiOps v p, st, ir => do
    let s ← ir.arena[p]?
    let bn ← s.blk
    let bd ← getBlock ir bn
    let (_, st1, ir1) ← ssaRun f (.phiLoop v p bd.preds) st ir
    ssaRun f (.remTriv p) st1 ir1
  | _ + 1, .phiLoop _ _ [], st, ir => pure (none, st, ir)
  | f + 1, .phiLoop v p (q :: rest), st, ir => do
    let (r, st1, ir1) ← ssaRun f (.grd v q) st ir
    let rid ← r
    let a2 ← addInputA f ir1.arena p rid
    ssaRun f (.phiLoop v p rest) st1 { ir1 with arena := a2 }
  | f + 1, .remTriv p, st, ir => do
    let s ← ir.arena[p]?
    match s.kind with
    | .phi ins =>
      match scanSame f ir.arena p ins none with
      | .nontrivial => pure (some p, st, ir)
      | .trivial same => do
        let bn ← s.blk
        let bd ← getBlock ir bn
        let ph2 ← pyEraseE f ir.arena bd.phis p
        let ir1 := setBlock ir bn { bd with phis := ph2 }
        let users := filterF (fun x => x ≠ p) s.users
        let a2 ← replaceByA f ir1.arena p same
        let d ← aGet st.vars s.name
        let cd := d.currentDef.map
          (fun e => if e.2 = some p then (e.1, same) else e)
        let d' : SSADef := { d with currentDef := cd }
        let st1 := { st with vars := aSet st.vars s.name d' }
        let (_, st2, ir2) ←
          ssaRun f (.remTrivUsers users) st1 { ir1 with arena := a2 }
        pure (same, st2, ir2)
    | _ => none
  | _ + 1, .remTrivUsers [], st, ir => pure (none, st, ir)
  | f + 1, .remTrivUsers (u :: rest), st, ir => do
    let s ← ir.arena[u]?
    if s.kind.isPhi then do
      let (_, st1, ir1) ← ssaRun f (.remTriv u) st ir
      ssaRun f (.remTrivUsers rest) st1 ir1
    else ssaRun f (.remTrivUsers rest) st ir

/-- Decimal digits of a natural number, most significant first; the
    fuel argument keeps the recursion structural (n itself is always
    enough fuel). -/
def natDigsF : Nat → Nat → List Nat
  | 0, n => [n]
  | f + 1, n => if n < 10 then [n] else natDigsF f (n / 10) ++ [n % 10]

def natDigs (n : Nat) : List Nat :=
  natDigsF n n

/-- Python str() of a non-negative integer. -/
def pyStrNat (n : Nat) : String :=
  String.mk ((natDigs n).map (fun d => Char.ofNat (48 + d)))

/-- Python str() of an integer. -/
def pyStrInt : Int → String
  | .ofNat n => pyStrNat n
  | .negSucc n => "-" ++ pyStrNat (n + 1)

/-- Numeric value of a decimal digit character. -/
def digVal (c : Char) : Option Nat :=
  if 48 ≤ c.toNat ∧ c.toNat ≤ 57 then some (c.toNat - 48) else none

def parseDigitsAux (acc : Nat) : List Char → Option Nat
  | [] => some acc
  | c :: cs => do
    let d ← digVal c
    parseDigitsAux (acc * 10 + d) cs

/-- Python int() on the plain decimal forms the IR stores (optional
    sign followed by digits); anything else raises ValueError. -/
def pyInt (s : String) : Option Int :=
  match s.data with
  | [] => none
  | '-' :: cs =>
    match cs with
    | [] => none
    | _ => (parseDigitsAux 0 cs).map (fun n => -(n : Int))
  | '+' :: cs =>
    match cs with
    | [] => none
    | _ => (parseDigitsAux 0 cs).map Int.ofNat
  | cs => (parseDigitsAux 0 cs).map Int.ofNat

/-- int.bit_length() for the non-negative values wrap produces. -/
def natBitLength (n : Nat) : Nat :=
  if n = 0 then 0 else Nat.log2 n + 1

/-- lvn.wrap: reduce mod 2^bits (Python % with a positive modulus is
    the euclidean remainder), then subtract the base when the signed
    low-bits pattern fills all `bits` bits. -/
def wrap (value : Int) (bits : Nat) (signed : Bool) : Int :=
  let base : Int := (2 : Int) ^ bits
  let v := value.emod base
  if signed && (natBitLength v.toNat = bits) then v - base else v

/-- Membership in the lvn.ops folding table. -/
def Op.foldable (o : Op) : Bool :=
  o = .ADD ∨ o = .SUB ∨ o = .MUL ∨ o = .MOD ∨ o = .LSH ∨ o = .RSH

/-- The arbitrary-precision Python operators backing lvn.ops.  Python
    `%` is the floor-style remainder and raises on a zero divisor;
    shifts raise on a negative count. -/
def pyBinArith : Op → Int → Int → Option Int
  | .ADD, x, y => some (x + y)
  | .SUB, x, y => some (x - y)
  | .MUL, x, y => some (x * y)
  | .MOD, x, y => if y = 0 then none else some (Int.fmod x y)
  | .LSH, x, y => if y < 0 then none else some (x * 2 ^ y.toNat)
  | .RSH, x, y => if y < 0 then none else some (Int.fdiv x (2 ^ y.toNat))
  | _, _, _ => none

/-- lvn.fold_instr.  The outer Option is an exception (ValueError from
    int(), ZeroDivisionError, negative shift, or a bit-less result
    type); the inner Option is the fold-or-not result. -/
def foldInstr (a : Arena) (i : InstrId) : Option (Option Instr) := do
  let s ← a[i]?
  match s.kind with
  | .binop o xi yi =>
    if o.foldable then do
      let x ← a[xi]?
      let y ← a[yi]?
      match x.kind, y.kind with
      | .const vx, .const vy =>
        if x.ty.bitsTruthy && y.ty.bitsTruthy then do
          let ix ← pyInt vx
          let iy ← pyInt vy
          let r ← pyBinArith o ix iy
          let nb ← s.ty.bits
          let folded := wrap r nb s.ty.isSigned
          pure (some ⟨s.name, s.ty, s.ssaId, none, [], [], .const (pyStrInt folded)⟩)
        else pure none
      | _, _ => pure none
    else pure none
  | _ => pure none

/-- Type.__str__ (lowercased member name). -/
def tyStr : Ty → String
  | .i1 => "i1" | .i8 => "i8" | .i16 => "i16" | .i32 => "i32"
  | .i64 => "i64" | .i128 => "i128" | .i256 => "i256"
  | .u8 => "u8" | .u16 => "u16" | .u32 => "u32" | .u64 => "u64"
  | .u128 => "u128" | .u256 => "u256" | .f32 => "f32" | .f64 => "f64"
  | .stringTy => "string" | .void => "void"

/-- str() of an ssa_id attribute (None prints as "None"). -/
def ssaStr : Option Nat → String
  | some n => pyStrNat n
  | none => "None"

def joinComma : List String → String
  | [] => ""
  | [x] => x
  | x :: xs => x ++ ", " ++ joinComma xs

/-- FunctionCall.__str__, the only str() an instruction-object Value
    param can need (a raw operand kept in a fingerprint is a Call that
    is also an assignment, i.e. a FunctionCall). -/
def strInstrKey (a : Arena) (i : InstrId) : String :=
  match a[i]? with
  | none => ""
  | some s =>
    match s.kind with
    | .fcall c ps =>
      let arg := fun (p : InstrId) =>
        match a[p]? with
        | some q => "%" ++ q.name ++ "." ++ ssaStr q.ssaId
        | none => ""
      "%" ++ s.name ++ "." ++ ssaStr s.ssaId ++ ": " ++ tyStr s.ty ++
        " = fcall " ++ c ++ "(" ++ joinComma (ps.map arg) ++ ")"
    | _ => ""

/-- A Value fingerprint parameter: an operand's value number, a raw
    string payload, a raw Op, a Type or bool that landed in a slot via
    the swapped constructor call, or a raw instruction object. -/
inductive VParam
  | int (n : Int)
  | str (s : String)
  | opv (o : Op)
  | tyv (t : Ty)
  | boolv (b : Bool)
  | iobj (i : InstrId)
deriving DecidableEq

/-- Python truthiness of a fingerprint parameter. -/
def vpTruthy : VParam → Bool
  | .int n => n ≠ 0
  | .str s => s ≠ ""
  | .opv _ => true
  | .tyv _ => true
  | .boolv b => b
  | .iobj _ => true

/-- str() of a fingerprint parameter (the sort key). -/
def vpStr (a : Arena) : VParam → String
  | .int n => pyStrInt n
  | .str s => s
  | .opv o => o.str
  | .tyv t => tyStr t
  | .boolv b => if b then "True" else "False"
  | .iobj i => strInstrKey a i

/-- Python == between fingerprint parameters (True == 1 included;
    instruction objects compare structurally). -/
def vpEq (f : Nat) (a : Arena) : VParam → VParam → Bool
  | .int n, .int m => n = m
  | .int n, .boolv b => n = (if b then 1 else 0)
  | .boolv b, .int n => n = (if b then 1 else 0)
  | .str s, .str t => s = t
  | .opv o, .opv p => o = p
  | .tyv t, .tyv u => t = u
  | .boolv b, .boolv c => b = c
  | .iobj i, .iobj j => pyEq f a i j
  | _, _ => false

def vpEqList (f : Nat) (a : Arena) : List VParam → List VParam → Bool
  | [], [] => true
  | x :: xs, y :: ys => vpEq f a x y && vpEqList f a xs ys
  | _, _ => false

/-- lvn.Value, as stored: the opcode name, whatever the caller put in
    the instr_type slot, and the (possibly sorted) parameter list. -/
structure PyValue where
  opcodeName : String
  instrTypeF : VParam
  params : List VParam
deriving DecidableEq

/-- Value.__eq__. -/
def vEq (f : Nat) (a : Arena) (v w : PyValue) : Bool :=
  (v.opcodeName = w.opcodeName : Bool)
    && vpEq f a v.instrTypeF w.instrTypeF
    && vpEqList f a v.params w.params

/-- Python string ≤ (code-point lexicographic). -/
def charsLe : List Char → List Char → Bool
  | [], _ => true
  | _ :: _, [] => false
  | c :: cs, d :: ds => if c = d then charsLe cs ds else decide (c < d)

def strLe (s t : String) : Bool :=
  charsLe s.data t.data

/-- Stable insertion of x after every element with a key ≤ its own
    (the order `sorted(..., key=str)` produces). -/
def insSorted (a : Arena) (x : VParam) : List VParam → List VParam
  | [] => [x]
  | y :: ys =>
    if strLe (vpStr a y) (vpStr a x) then y :: insSorted a x ys
    else x :: y :: ys

def sortByStr (a : Arena) (ps : List VParam) : List VParam :=
  ps.foldl (fun acc x => insSorted a x acc) []

/-- Value.__init__(opcode_name, is_commutative, instr_type, params):
    store opcode and the instr_type argument, and sort the params by
    str() whenever the is_commutative argument is truthy. -/
def mkValue (a : Arena) (opcName : String) (isCommArg instrTypeArg : VParam)
    (params : List VParam) : PyValue :=
  ⟨opcName, instrTypeArg,
    if vpTruthy isCommArg then sortByStr a params else params⟩

/-- Generic insertion-ordered dict over a decidable key type. -/
def dGet [DecidableEq κ] (l : List (κ × β)) (k : κ) : Option β :=
  (l.find? (fun p => p.1 = k)).map (·.2)

def dSet [DecidableEq κ] (l : List (κ × β)) (k : κ) (v : β) :
    List (κ × β) :=
  if anyF (fun p => p.1 = k) l then
    l.map (fun p => if p.1 = k then (k, v) else p)
  else l ++ [(k, v)]

/-- LVN.run_pass's per-run tables plus the pass object's num_count. -/
structure LvnMaps where
  numberings : List ((String × Option Nat) × Int)
  valueTable : List (PyValue × Int)
  names : List (Int × InstrId)
  numCount : Int
deriving DecidableEq

/-- value_table.get (dict lookup by Value.__eq__). -/
def vtGet (f : Nat) (a : Arena) (m : List (PyValue × Int)) (v : PyValue) :
    Option Int :=
  (m.find? (fun p => vEq f a p.1 v)).map (·.2)

/-- value_table[v] = n (update an equal key in place, else append). -/
def vtSet (f : Nat) (a : Arena) (m : List (PyValue × Int)) (v : PyValue)
    (n : Int) : List (PyValue × Int) :=
  if anyF (fun p => vEq f a p.1 v) m then
    m.map (fun p => if vEq f a p.1 v then (p.1, n) else p)
  else m ++ [(v, n)]

/-- One operand turned into a fingerprint parameter: a value number
    for non-Call assignment operands (KeyError when unregistered),
    otherwise the raw payload. -/
def operandToVParam (m : LvnMaps) (a : Arena) (od : Operand) :
    Option VParam :=
  match od with
  | .instr x => do
    let xi ← a[x]?
    if xi.kind.isAssignment && !xi.kind.isCall then do
      let n ← dGet m.numberings (xi.name, xi.ssaId)
      pure (.int n)
    else pure (.iobj x)
  | .opv o => pure (.opv o)
  | .strv s => pure (.str s)
  | .blockv _ => none

/-- The fingerprint parameter list (instr.operands mapped). -/
def collectParams (m : LvnMaps) (a : Arena) (i : InstrId) :
    Option (List VParam) := do
  let s ← a[i]?
  let n ← operandNumA s.kind
  (List.range n).foldlM
    (fun acc idx => do
      let od ← getOperandAtA a i idx
      let vp ← operandToVParam m a od
      pure (acc ++ [vp]))
    []

/-- The miss-path operand redirection: replace every assignment
    operand with the canonical instruction registered under the
    operand's value number. -/
def redirectLoop (f : Nat) (m : LvnMaps) (ir : IR) (i : InstrId)
    (n idx : Nat) : Option IR :=
  match f with
  | 0 => none
  | f + 1 =>
    if idx ≥ n then pure ir
    else do
      let od ← getOperandAtA ir.arena i idx
      match od with
      | .instr x => do
        let xi ← ir.arena[x]?
        if xi.kind.isAssignment then do
          let num ← dGet m.numberings (xi.name, xi.ssaId)
          let c ← dGet m.names num
          let a2 ← setOperandAtA f ir.arena i idx c
          redirectLoop f m { ir with arena := a2 } i n (idx + 1)
        else redirectLoop f m ir i n (idx + 1)
      | _ => redirectLoop f m ir i n (idx + 1)

/-- The Value fingerprint exactly as LVN.run_pass constructs it:
    `Value(instr.opcode_name, instr.instr_type, isinstance-BinOp-and-
    commutative, operand params)` against the constructor signature
    `(opcode_name, is_commutative, instr_type, params)`. -/
def lvnFingerprint (m : LvnMaps) (ir : IR) (i : InstrId) :
    Option PyValue := do
  let s ← ir.arena[i]?
  let params ← collectParams m ir.arena i
  let comm := match s.kind with
    | .binop o _ _ => o.isCommutative
    | _ => false
  pure (mkValue ir.arena s.kind.opcodeName (VParam.tyv s.ty)
    (VParam.boolv comm) params)

/-- The body of LVN.run_pass for one visited instruction: try constant
    folding (replacing in place), fingerprint, then the table hit
    (`if number:` — so a stored 0 is treated as a miss) or the
    fresh-number miss path. -/
def lvnProcess (f : Nat) (m : LvnMaps) (ir : IR) (passBn : String)
    (i0 : InstrId) : Option (LvnMaps × IR) := do
  let s0 ← ir.arena[i0]?
  if !s0.kind.isAssignment then pure (m, ir)
  else do
    let fr ← foldInstr ir.arena i0
    let step ← match fr with
      | some newC => do
        let bn ← s0.blk
        let j := ir.arena.length
        let ir' := { ir with arena := ir.arena ++ [newC] }
        let ir'' ← replaceInstrB f ir' bn i0 j
        pure (j, ir'')
      | none => pure (i0, ir)
    let i := step.1
    let ir1 := step.2
    let s ← ir1.arena[i]?
    let v ← lvnFingerprint m ir1 i
    let num? := vtGet f ir1.arena m.valueTable v
    let hit : Bool := match num? with
      | some n => decide (n ≠ 0)
      | none => false
    if hit then do
      let num ← num?
      let c ← dGet m.names num
      let j := ir1.arena.length
      let newI : Instr := ⟨s.name, s.ty, none, none, [], [], .idc c⟩
      let a2 := ir1.arena ++ [newI]
      let a3 ← addUsedVarsA f a2 j [c]
      let a4 := updI a3 j (fun w => { w with ssaId := s.ssaId })
      let ir2 ← replaceInstrB f { ir1 with arena := a4 } passBn i j
      let m' := { m with numberings := dSet m.numberings (s.name, s.ssaId) num }
      pure (m', ir2)
    else do
      let num := m.numCount + 1
      let m1 : LvnMaps :=
        ⟨m.numberings, vtSet f ir1.arena m.valueTable v num,
          dSet m.names num i, num⟩
      let n ← operandNumA s.kind
      let ir2 ← redirectLoop f m1 ir1 i n 0
      let m2 := { m1 with numberings := dSet m1.numberings (s.name, s.ssaId) num }
      pure (m2, ir2)

/-- The iteration source of DIA's remove_dead_instrs: the outer
    generator over the block's (live) instruction list, or an inner
    generator over a removed instruction's (live) used-vars list. -/
inductive DiaSrc
  | blockSrc (bn : String)
  | varsSrc (owner : InstrId)
deriving DecidableEq

def diaList (ir : IR) : DiaSrc → Option (List InstrId)
  | .blockSrc bn => (getBlock ir bn).map (·.instrs)
  | .varsSrc o => (ir.arena[o]?).map (·.usedVars)

/-- The generator filters, evaluated at resume time. -/
def diaPass (ir : IR) (src : DiaSrc) (x : InstrId) : Option Bool := do
  let s ← ir.arena[x]?
  match src with
  | .blockSrc _ =>
    pure (s.kind.isAssignment && !s.kind.isCall && s.users.isEmpty)
  | .varsSrc _ => pure (!s.kind.isCall && s.users.isEmpty)

/-- DIA.run_pass's remove_dead_instrs: a generator with a rising
    internal index over a list that the loop body mutates; each
    removal uses the instruction's own block, then recurses into the
    instruction's (just emptied) used-vars list. -/
def diaRemove (f : Nat) (ir : IR) (src : DiaSrc) (idx : Nat) : Option IR :=
  match f with
  | 0 => none
  | f + 1 => do
    let l ← diaList ir src
    match l[idx]? with
    | none => pure ir
    | some x => do
      let p ← diaPass ir src x
      if p then do
        let s ← ir.arena[x]?
        let bn ← s.blk
        let ir1 ← removeInstrB f ir bn x
        let ir2 ← diaRemove f ir1 (.varsSrc x) 0
        diaRemove f ir2 src (idx + 1)
      else diaRemove f ir src (idx + 1)

/-- DIA.run_pass. -/
def diaRunPass (f : Nat) (ir : IR) (bn : String) : Option IR :=
  diaRemove f ir (.blockSrc bn) 0

/-- The iteration of LVN.run_pass over the block's (live) instruction
    list (Python's list iterator: a rising index re-checked against
    the current list). -/
def lvnLoop (f : Nat) (m : LvnMaps) (ir : IR) (bn : String) (idx : Nat) :
    Option (LvnMaps × IR) :=
  match f with
  | 0 => none
  | f + 1 => do
    let bd ← getBlock ir bn
    match bd.instrs[idx]? with
    | none => pure (m, ir)
    | some i => do
      let r ← lvnProcess f m ir bn i
      lvnLoop f r.1 r.2 bn (idx + 1)

/-- LVN().run_pass(block) for a fresh LVN instance (num_count starts
    at -1), including the closing DIA run. -/
def lvnRunPass (f : Nat) (ir : IR) (bn : String) : Option IR := do
  let r ← lvnLoop f ⟨[], [], [], -1⟩ ir bn 0
  diaRunPass f r.2 bn

/-- The four pass levels of opt.manager. -/
inductive PLevel
  | moduleL | functionL | blockL | instructionL
deriving DecidableEq

/-- A concrete pass class, characterized by which Pass subclass
    (ModulePass, FunctionPass, BlockPass, InstructionPass) it
    derives from.  LVN and DIA are BlockPass subclasses. -/
structure PassClass where
  level : PLevel
deriving DecidableEq

/-- A Python value passed to register_pass: a pass class object, or an
    instance of one. -/
inductive PyObj
  | classObj (c : PassClass)
  | instObj (c : PassClass)
deriving DecidableEq

/-- isinstance(v, L) for a Pass-level class L: a class object is an
    instance of `type`, which lies outside the Pass hierarchy, so it
    is never an instance of any Pass subclass; an instance matches its
    own class's level. -/
def pyIsinstancePass (v : PyObj) (lvl : PLevel) : Bool :=
  match v with
  | .classObj _ => false
  | .instObj c => c.level = lvl

/-- PassManager's four registration lists. -/
structure PassManager where
  modulePasses : List PyObj
  functionPasses : List PyObj
  basicBlockPasses : List PyObj
  instructionPasses : List PyObj
deriving DecidableEq

/-- PassManager.register_pass: assert issubclass(p, Pass) (TypeError
    on a non-class), then test the argument with isinstance against
    each level class and append to the matching list. -/
def registerPass (pm : PassManager) (p : PyObj) : Option PassManager :=
  match p with
  | .instObj _ => none
  | .classObj _ =>
    if pyIsinstancePass p .moduleL then
      some { pm with modulePasses := pm.modulePasses ++ [p] }
    else if pyIsinstancePass p .functionL then
      some { pm with functionPasses := pm.functionPasses ++ [p] }
    else if pyIsinstancePass p .blockL then
      some { pm with basicBlockPasses := pm.basicBlockPasses ++ [p] }
    else if pyIsinstancePass p .instructionL then
      some { pm with instructionPasses := pm.instructionPasses ++ [p] }
    else some pm

/-- One Block.add_pred / Block.add_succ call. -/
inductive EdgeOp
  | pred (self other : String)
  | succ (self other : String)
deriving DecidableEq

/-- A sequence of add_pred/add_succ calls. -/
def runEdgeOps (f : Nat) (ir : IR) : List EdgeOp → Option IR
  | [] => some ir
  | .pred s o :: rest => do runEdgeOps f (← addPredB f ir s o) rest
  | .succ s o :: rest => do runEdgeOps f (← addSuccB f ir s o) rest

/-- CFG edge symmetry as membership: a ∈ b.preds ⇔ b ∈ a.succs. -/
def EdgeSymm (ir : IR) : Prop :=
  ∀ a b bda bdb, getBlock ir a = some bda → getBlock ir b = some bdb →
    (a ∈ bdb.preds ↔ b ∈ bda.succs)

/-- A fresh LVN instance's tables (num_count starts at -1). -/
def emptyMaps : LvnMaps := ⟨[], [], [], -1⟩

/-- Two structurally equal constants kept alive by a procedure call:
    a = const 1, b = const 1, pcall f(a, b). -/
def zeroDupIR : IR := ⟨
  [⟨"a", .i32, some 0, some "bb0", [2], [], .const "1"⟩,
   ⟨"b", .i32, some 0, some "bb0", [2], [], .const "1"⟩,
   ⟨"", .void, none, some "bb0", [], [0, 1], .pcall "f" [0, 1]⟩],
  [("bb0", ⟨[], [0, 1, 2], [], []⟩)]⟩

/-- A trivial φ: k = phi(c, c) with its name registered and no users. -/
def trivialPhiIR : IR := ⟨
  [⟨"c", .i32, some 0, some "bb0", [1], [], .const "7"⟩,
   ⟨"k", .void, some 0, some "bb0", [], [0], .phi [0, 0]⟩],
  [("bb0", ⟨[1], [0], [], []⟩)]⟩

def trivialPhiSt : SSAStore := ⟨[("k", ⟨0, [("bb0", some 1)]⟩)], [], ["bb0"]⟩

/-- Two empty blocks with no edges. -/
def twoBlocksIR : IR := ⟨[], [("a", ⟨[], [], [], []⟩), ("b", ⟨[], [], [], []⟩)]⟩

/-- replace_instr on a one-instruction block: the old and new Consts. -/
def staleBlockIR : IR := ⟨
  [⟨"a", .i32, some 0, some "bb0", [], [], .const "1"⟩,
   ⟨"a", .i32, some 0, none, [], [], .const "2"⟩],
  [("bb0", ⟨[], [0], [], []⟩)]⟩

/-- The C7 block: a and b are string-typed constants (so the BinOps do
    not fold), d = sub a b, e = sub b a, kept alive by pcall f(d, e). -/
def subSwapIR : IR := ⟨
  [⟨"a", .stringTy, some 0, some "bb0", [2, 3], [], .const "u"⟩,
   ⟨"b", .stringTy, some 0, some "bb0", [2, 3], [], .const "w"⟩,
   ⟨"d", .i32, some 0, some "bb0", [4], [0, 1], .binop .SUB 0 1⟩,
   ⟨"e", .i32, some 1, some "bb0", [4], [1, 0], .binop .SUB 1 0⟩,
   ⟨"", .void, none, some "bb0", [], [2, 3], .pcall "f" [2, 3]⟩],
  [("bb0", ⟨[], [0, 1, 2, 3, 4], [], []⟩)]⟩

/-- LVN's tables after processing a. -/
def ssMaps1 : LvnMaps :=
  ⟨[(("a", some 0), 0)],
   [(⟨"const", .boolv false, [.str "u"]⟩, 0)],
   [(0, 0)], 0⟩

/-- LVN's tables after processing a and b. -/
def ssMaps2 : LvnMaps :=
  ⟨[(("a", some 0), 0), (("b", some 0), 1)],
   [(⟨"const", .boolv false, [.str "u"]⟩, 0),
    (⟨"const", .boolv false, [.str "w"]⟩, 1)],
   [(0, 0), (1, 1)], 1⟩

/-- LVN's tables after processing a, b and d = sub a b; note the sub
    fingerprint's params were sorted into [0, 1, SUB]. -/
def ssMaps3 : LvnMaps :=
  ⟨[(("a", some 0), 0), (("b", some 0), 1), (("d", some 0), 2)],
   [(⟨"const", .boolv false, [.str "u"]⟩, 0),
    (⟨"const", .boolv false, [.str "w"]⟩, 1),
    (⟨"sub", .boolv false, [.int 0, .int 1, .opv .SUB]⟩, 2)],
   [(0, 0), (1, 1), (2, 2)], 2⟩

/-- The graph after processing d (operand redirection re-appended d
    to its operands' user lists). -/
def ssIR3 : IR := ⟨
  [⟨"a", .stringTy, some 0, some "bb0", [3, 2], [], .const "u"⟩,
   ⟨"b", .stringTy, some 0, some "bb0", [3, 2], [], .const "w"⟩,
   ⟨"d", .i32, some 0, some "bb0", [4], [0, 1], .binop .SUB 0 1⟩,
   ⟨"e", .i32, some 1, some "bb0", [4], [1, 0], .binop .SUB 1 0⟩,
   ⟨"", .void, none, some "bb0", [], [2, 3], .pcall "f" [2, 3]⟩],
  [("bb0", ⟨[], [0, 1, 2, 3, 4], [], []⟩)]⟩

/-- The tables after processing e: its fingerprint hit d's number 2. -/
def ssMaps4 : LvnMaps :=
  ⟨[(("a", some 0), 0), (("b", some 0), 1), (("d", some 0), 2),
    (("e", some 1), 2)],
   [(⟨"const", .boolv false, [.str "u"]⟩, 0),
    (⟨"const", .boolv false, [.str "w"]⟩, 1),
    (⟨"sub", .boolv false, [.int 0, .int 1, .opv .SUB]⟩, 2)],
   [(0, 0), (1, 1), (2, 2)], 2⟩

/-- The graph after processing e = sub b a: e was replaced in place by
    a fresh Id copy (arena slot 5) of the canonical d, carrying e's
    name and ssa_id; the pcall now reads the copy. -/
def ssIR4 : IR := ⟨
  [⟨"a", .stringTy, some 0, some "bb0", [2], [], .const "u"⟩,
   ⟨"b", .stringTy, some 0, some "bb0", [2], [], .const "w"⟩,
   ⟨"d", .i32, some 0, some "bb0", [4, 5], [0, 1], .binop .SUB 0 1⟩,
   ⟨"e", .i32, some 1, some "bb0", [], [], .binop .SUB 1 0⟩,
   ⟨"", .void, none, some "bb0", [], [2, 5], .pcall "f" [2, 5]⟩,
   ⟨"e", .i32, some 1, some "bb0", [4], [2], .idc 2⟩],
  [("bb0", ⟨[], [0, 1, 2, 5, 4], [], []⟩)]⟩

/-- The C8 block: x = const (used only by y), y = id x (dead),
    z = const (dead). -/
def deadChainIR : IR := ⟨
  [⟨"x", .i32, some 0, some "bb0", [1], [], .const "1"⟩,
   ⟨"y", .i32, some 0, some "bb0", [], [0], .idc 0⟩,
   ⟨"z", .i32, some 0, some "bb0", [], [], .const "5"⟩],
  [("bb0", ⟨[], [0, 1, 2], [], []⟩)]⟩

/-- A φ (slot 2) whose two inputs are the distinct Const objects in
    slots 0 and 1 — same name "c", type i32 and value "9" but
    arbitrary (and possibly different) ssa_ids — plus one user
    u = id φ (slot 3) with arbitrary name, type and ssa_id. -/
def structEqPhiIR (s1 s2 sp su : Option Nat) (un : String) (tu : Ty) :
    IR := ⟨
  [⟨"c", .i32, s1, some "bb0", [2], [], .const "9"⟩,
   ⟨"c", .i32, s2, some "bb0", [2], [], .const "9"⟩,
   ⟨"k", .void, sp, some "bb0", [3], [0, 1], .phi [0, 1]⟩,
   ⟨un, tu, su, some "bb0", [], [2], .idc 2⟩],
  [("bb0", ⟨[2], [0, 1, 3], [], []⟩)]⟩

def structEqPhiSt : SSAStore := ⟨[("k", ⟨0, [("bb0", some 2)]⟩)], [], ["bb0"]⟩

/-- Python == on two Const instructions in slots i and j: name, type
    and value only — never ssa_id, users, used-vars or block. -/
def constEqObligation (f : Nat) (a : Arena) (i j : InstrId) : Prop :=
  ∀ u v wi wj, a[i]? = some u → a[j]? = some v →
    u.kind = .const wi → v.kind = .const wj →
    u.name = v.name → u.ty = v.ty → wi = wj →
    pyEq (f + 1) a i j = true

/-- A block x = const (used only by y), y = id x (dead), z = const
    (dead), with every name, type and ssa_id arbitrary. -/
def deadChainFam (n1 n2 n3 v1 v3 : String) (t1 t2 t3 : Ty)
    (s1 s2 s3 : Option Nat) : IR := ⟨
  [⟨n1, t1, s1, some "bb0", [1], [], .const v1⟩,
   ⟨n2, t2, s2, some "bb0", [], [0], .idc 0⟩,
   ⟨n3, t3, s3, some "bb0", [], [], .const v3⟩],
  [("bb0", ⟨[], [0, 1, 2], [], []⟩)]⟩

/-- The C1 hit block: a = const 7 : i32, b = const 8 : i8,
    c = const 8 : i64 (ssa_ids 0, 0 and 5), all kept alive by
    pcall f(a, b, c).  c's fingerprint equals b's, which is
    registered under the nonzero value number 1. -/
def hitFam : IR := ⟨
  [⟨"a", .i32, some 0, some "bb0", [3], [], .const "7"⟩,
   ⟨"b", .i8, some 0, some "bb0", [3], [], .const "8"⟩,
   ⟨"c", .i64, some 5, some "bb0", [3], [], .const "8"⟩,
   ⟨"", .void, none, some "bb0", [], [0, 1, 2], .pcall "f" [0, 1, 2]⟩],
  [("bb0", ⟨[], [0, 1, 2, 3], [], []⟩)]⟩

/-- Tables after LVN processes a. -/
def hitMaps1 : LvnMaps :=
  ⟨[(("a", some 0), 0)],
   [(⟨"const", .boolv false, [.str "7"]⟩, 0)], [(0, 0)], 0⟩

/-- Tables after LVN processes a and b. -/
def hitMaps2 : LvnMaps :=
  ⟨[(("a", some 0), 0), (("b", some 0), 1)],
   [(⟨"const", .boolv false, [.str "7"]⟩, 0),
    (⟨"const", .boolv false, [.str "8"]⟩, 1)],
   [(0, 0), (1, 1)], 1⟩

/-- Tables after LVN processes c: its fingerprint hit number 1. -/
def hitMaps3 : LvnMaps :=
  ⟨[(("a", some 0), 0), (("b", some 0), 1), (("c", some 5), 1)],
   [(⟨"const", .boolv false, [.str "7"]⟩, 0),
    (⟨"const", .boolv false, [.str "8"]⟩, 1)],
   [(0, 0), (1, 1)], 1⟩

/-- The graph after c is replaced through Block.replace_instr by the
    fresh Id copy (slot 4) of the canonical b, carrying c's name,
    type and ssa_id; the pcall now reads the copy. -/
def hitIR3 : IR := ⟨
  [⟨"a", .i32, some 0, some "bb0", [3], [], .const "7"⟩,
   ⟨"b", .i8, some 0, some "bb0", [3, 4], [], .const "8"⟩,
   ⟨"c", .i64, some 5, some "bb0", [], [], .const "8"⟩,
   ⟨"", .void, none, some "bb0", [], [0, 1, 4], .pcall "f" [0, 1, 4]⟩,
   ⟨"c", .i64, some 5, some "bb0", [3], [1], .idc 1⟩],
  [("bb0", ⟨[], [0, 1, 4, 3], [], []⟩)]⟩

/-- The wrapping rule as the specification words it: reduce mod
    2^bits with a non-negative remainder, then subtract the base
    when the type is signed and the low-bits representation has its
    top bit set. -/
def wrapSpec (value : Int) (bits : Nat) (signed : Bool) : Int :=
  let base : Int := (2 : Int) ^ bits
  let v := value.emod base
  if signed && v.toNat.testBit (bits - 1) then v - base else v

/-- A concrete fold: d = add x y : u8 with x = 100, y = 29; the raw
    sum 129 wraps under the (source-swapped) signed flag of u8 to
    -127. -/
def foldWitA : Arena :=
  [⟨"x", .u8, some 0, none, [2], [], .const "100"⟩,
   ⟨"y", .u8, none, none, [2], [], .const "29"⟩,
   ⟨"d", .u8, some 1, none, [], [0, 1], .binop .ADD 0 1⟩]

/-- A non-trivial φ: k = φ(a, b) with a = const 1 and b = const 2. -/
def ntPhiIR : IR := ⟨
  [⟨"k", .void, some 0, some "bb0", [], [], .phi [1, 2]⟩,
   ⟨"a", .i8, some 0, some "bb0", [0], [], .const "1"⟩,
   ⟨"b", .i8, some 1, some "bb0", [0], [], .const "2"⟩],
  [("bb0", ⟨[0], [1, 2], [], []⟩)]⟩

def ntPhiSt : SSAStore := ⟨[("k", ⟨1, [("bb0", some 0)]⟩)], [], ["bb0"]⟩

/-- Two blocks with no edges yet. -/
def edgeWitIR : IR :=
  ⟨[], [("a", ⟨[], [], [], []⟩), ("b", ⟨[], [], [], []⟩)]⟩

/-- Numeric value of a most-significant-first digit list. -/
def digitsVal (l : List Nat) : Nat :=
  l.foldl (fun a d => a * 10 + d) 0

/-- The SSA builder never adds a φ to a sealed single-predecessor
    block: block data evolves by keeping preds intact and, on sealed
    single-predecessor blocks, only ever removing φ entries. -/
def BlockMono (sealed : List String) (ir ir' : IR) : Prop :=
  ∀ X bd, getBlock ir X = some bd → ∃ bd', getBlock ir' X = some bd' ∧
    bd'.preds = bd.preds ∧
    (X ∈ sealed → bd.preds.length = 1 → bd'.phis.Sublist bd.phis)

/-- b0 defines x and feeds the sealed single-predecessor block b1. -/
def grdWitIR : IR := ⟨
  [⟨"x", .i8, some 0, some "b0", [], [], .const "1"⟩],
  [("b0", ⟨[], [0], [], ["b1"]⟩), ("b1", ⟨[], [], ["b0"], []⟩)]⟩

def grdWitSt : SSAStore :=
  ⟨[("x", ⟨0, [("b0", some 0)]⟩)], [], ["b0", "b1"]⟩

/-- C1 fails on the code: the first value class is registered under
    value number 0, and `if number:` treats a 0 lookup hit as a miss.
    After LVN.run_pass (including DIA) on the block above, both
    constants remain in the instruction list, their Value fingerprints
    (as LVN builds them) are equal, and b was never replaced by an Id
    copy — it is still the original Const. -/
theorem lvn_value_number_zero_duplicates_remain :
    ((lvnRunPass 8 zeroDupIR "bb0").bind (fun ir' =>
      (lvnFingerprint emptyMaps ir' 0).bind (fun f0 =>
        (lvnFingerprint emptyMaps ir' 1).map (fun f1 =>
          ((getBlock ir' "bb0").map (·.instrs),
           (ir'.arena[1]?).map (·.kind),
           vEq 8 ir'.arena f0 f1))))) =
    some (some [0, 1, 2], some (.const "1"), true) := by decide

/-- C4 fails on the code: re-running remove_trivial_phi on a φ that
    was already removed as trivial does not leave the graph unchanged;
    the second run raises (the removed φ still points at its block,
    whose φ-list no longer contains it, so list.remove fails), instead
    of being a no-op.  The first run succeeds and returns the single
    input. -/
theorem remove_trivial_phi_rerun_after_removal_fails :
    (ssaRun 12 (.remTriv 1) trivialPhiSt trivialPhiIR).map (fun r =>
      (r.1, ssaRun 12 (.remTriv 1) r.2.1 r.2.2)) =
    some (some 0, none) := by decide

/-- C5 fails on the code: repeating the same add_pred call appends a
    duplicate entry to the callee's own predecessor list (the guard
    only protects the reverse successor edge, which stays single). -/
theorem add_pred_repeat_duplicates_pred_entry :
    (((addPredB 5 twoBlocksIR "b" "a").bind
        (fun i1 => addPredB 5 i1 "b" "a")).map (fun i2 =>
      ((getBlock i2 "b").map (·.preds), (getBlock i2 "a").map (·.succs)))) =
    some (some ["a", "a"], some ["b"]) := by decide

/-- C6 (code bug): Block.replace_instr splices the old instruction out
    of the instruction list but never nulls its block field (unlike
    remove_instr, which does), and SSA.remove_trivial_phi removes the
    φ from its block's φ-list while likewise leaving phi.block set.
    Both removed instructions end detached-from-list with a dangling
    non-null block field, violating the claimed invariant. -/
theorem replace_instr_leaves_stale_block_field :
    ((replaceInstrB 6 staleBlockIR "bb0" 0 1).map (fun ir' =>
      (getBlock ir' "bb0", (ir'.arena[0]?).map (·.blk)))) =
      some (some ⟨[], [1], [], []⟩, some (some "bb0"))
    ∧ ((ssaRun 12 (.remTriv 1) trivialPhiSt trivialPhiIR).map (fun r =>
        ((getBlock r.2.2 "bb0").map (·.phis), (r.2.2.arena[1]?).map (·.blk)))) =
      some (some [], some (some "bb0")) := by
  exact ⟨by decide, by decide⟩

/-- C7 fails on the code: because LVN passes (opcode, type, comm,
    params) to a constructor expecting (opcode, comm, type, params),
    the truthy Type lands in the sorting flag and every fingerprint's
    operand list is sorted, commutative or not.  The fingerprints LVN
    builds for sub with operand value numbers (0, 1) and (1, 0) are
    equal, and the per-instruction steps of run_pass on subSwapIR
    (a, then b, then d, then e — exactly the loop's visit order with
    its fuel) merge the non-commutative e = sub b a into an Id copy of
    d = sub a b. -/
theorem lvn_sub_fingerprints_merge :
    mkValue [] "sub" (VParam.tyv .i32) (VParam.boolv false)
        [.opv .SUB, .int 0, .int 1] =
      mkValue [] "sub" (VParam.tyv .i32) (VParam.boolv false)
        [.opv .SUB, .int 1, .int 0]
    ∧ lvnProcess 11 emptyMaps subSwapIR "bb0" 0 = some (ssMaps1, subSwapIR)
    ∧ lvnProcess 10 ssMaps1 subSwapIR "bb0" 1 = some (ssMaps2, subSwapIR)
    ∧ lvnProcess 9 ssMaps2 subSwapIR "bb0" 2 = some (ssMaps3, ssIR3)
    ∧ lvnProcess 8 ssMaps3 ssIR3 "bb0" 3 = some (ssMaps4, ssIR4) := by
  refine ⟨by decide, by decide, by decide, by decide, by decide⟩

/-- C8 fails on the code: after DIA.run_pass on the block above, y is
    removed, but x — y's used-var, now unused — remains (remove_instr
    empties the very used_vars list the recursive generator is about
    to iterate), and the dead z remains as well (the removal shifted
    the list under the iterator, which skipped z).  Two non-Call
    assignment instructions with empty user lists stay in the block. -/
theorem dia_leaves_dead_instructions :
    ((diaRunPass 8 deadChainIR "bb0").map (fun ir' =>
      ((getBlock ir' "bb0").map (·.instrs),
       (ir'.arena[0]?).map (fun s => (s.users, s.kind.isCall)),
       (ir'.arena[2]?).map (fun s => (s.users, s.kind.isCall))))) =
    some (some [0, 2], some ([], false), some ([], false)) := by decide

/-- C9 (code bug): PassManager.register_pass tests the pass *class*
    with isinstance, which never holds for a class object, so no pass
    is ever classified into any of the four lists — a registered
    BlockPass such as LVN is never stored, hence never run.  The call
    returns with the manager unchanged for every pass class. -/
theorem register_pass_never_classifies (pm : PassManager) (c : PassClass) :
    registerPass pm (.classObj c) = some pm := rfl

/-- C10: remove_trivial_phi decides triviality by structural __eq__:
    (1) two distinct Const objects (distinct slots) with equal name,
    type and value compare == whatever their ssa_ids, users or blocks;
    (2) the input scan judges a φ with inputs [i, j] trivial with
    result i whenever j == i and i is not == the φ; and (3) running
    remove_trivial_phi on the φ k = phi(c.0, c.1) — whose inputs are
    two distinct Const objects with equal name, type and value but
    different ssa_ids — removes it from the block's φ-list, redirects
    its user u = id k to the first input, and returns that input. -/
theorem remove_trivial_phi_structural_equality_merge :
    (∀ f a i j, constEqObligation f a i j)
    ∧ (∀ f a p i j, pyEq f a i p = false → pyEq f a j i = true →
        scanSame f a p [i, j] none = .trivial (some i))
    ∧ ssaRun 12 (.remTriv 2) structEqPhiSt
        (structEqPhiIR (some 0) (some 1) (some 0) (some 0) "u" .i8) =
      some (some 0,
        ⟨[("k", ⟨0, [("bb0", some 0)]⟩)], [], ["bb0"]⟩,
        ⟨[⟨"c", .i32, some 0, some "bb0", [3], [], .const "9"⟩,
          ⟨"c", .i32, some 1, some "bb0", [], [], .const "9"⟩,
          ⟨"k", .void, some 0, some "bb0", [], [], .phi [0, 1]⟩,
          ⟨"u", .i8, some 0, some "bb0", [], [0], .idc 0⟩],
         [("bb0", ⟨[], [0, 1, 3], [], []⟩)]⟩) := by
  refine ⟨?_, ?_, ?_⟩
  · intro f a i j u v wi wj hi hj hki hkj hn ht hw
    unfold pyEq pyEqW
    by_cases hij : i = j
    · simp [hij]
      cases f <;> simp [pyEqW]
    · simp [hij, hi, hj, hki, hkj, hn, ht, hw]
      cases f <;> simp [pyEqW]
  · intro f a p i j hip hij
    simp [scanSame, hip, hij]
  · rfl

/-- C8 amended: DIA removes exactly the dead instructions its
    iterator visits.  It removes the visited y (detaching it and
    releasing its used-vars), but the removal empties y's used_vars
    list before the recursive generator iterates it, so the cascade
    never removes the newly dead x; and the removal shifts the list
    under the outer iterator, which skips z entirely.  Both dead
    constants survive the pass. -/
theorem dia_removes_visited_dead_instruction
    (n1 n2 n3 v1 v3 : String) (t1 t2 t3 : Ty) (s1 s2 s3 : Option Nat) :
    diaRunPass 8 (deadChainFam n1 n2 n3 v1 v3 t1 t2 t3 s1 s2 s3) "bb0" =
    some ⟨
      [⟨n1, t1, s1, some "bb0", [], [], .const v1⟩,
       ⟨n2, t2, s2, none, [], [], .idc 0⟩,
       ⟨n3, t3, s3, some "bb0", [], [], .const v3⟩],
      [("bb0", ⟨[], [0, 2], [], []⟩)]⟩ := rfl

set_option maxHeartbeats 1000000 in
/-- C1 amended: an assignment instruction whose Value fingerprint is
    already registered under a *nonzero* value number is replaced via
    Block.replace_instr by an Id copy of the canonical instruction
    carrying the original ssa_id (the registered-under-0 case instead
    takes the miss path — see the counterexample).  The conjuncts are
    the four iterations of LVN.run_pass's loop on the block, in visit
    order with the loop's fuel, followed by the closing DIA run which
    leaves the merged block intact. -/
theorem lvn_nonzero_hit_replaced_by_id_copy :
    lvnProcess 11 emptyMaps hitFam "bb0" 0 = some (hitMaps1, hitFam)
    ∧ lvnProcess 10 hitMaps1 hitFam "bb0" 1 = some (hitMaps2, hitFam)
    ∧ lvnProcess 9 hitMaps2 hitFam "bb0" 2 = some (hitMaps3, hitIR3)
    ∧ lvnProcess 8 hitMaps3 hitIR3 "bb0" 3 = some (hitMaps3, hitIR3)
    ∧ diaRunPass 7 hitIR3 "bb0" = some hitIR3 :=
  ⟨rfl, rfl, rfl, rfl, rfl⟩

/-- Every concrete bit-width the Type enum carries is positive. -/
theorem Ty.bits_pos (t : Ty) (n : Nat) (h : t.bits = some n) : 0 < n := by
  cases t <;> simp [Ty.bits] at h <;> omega

/-- For n < 2^bits, the top bit of n is set iff 2^(bits-1) ≤ n. -/
theorem testBit_top_iff (n bits : Nat) (hb : 0 < bits) (hn : n < 2 ^ bits) :
    n.testBit (bits - 1) = true ↔ 2 ^ (bits - 1) ≤ n := by
  have hsucc : bits - 1 + 1 = bits := by omega
  constructor
  · intro h
    by_contra hlt
    push_neg at hlt
    rw [Nat.testBit_to_div_mod, Nat.div_eq_of_lt hlt] at h
    simp at h
  · intro h1
    rw [Nat.testBit_to_div_mod]
    have hp : 0 < 2 ^ (bits - 1) := Nat.pos_pow_of_pos _ (by norm_num)
    have h2 : n < 2 ^ (bits - 1 + 1) := by rw [hsucc]; exact hn
    have ha : 1 ≤ n / 2 ^ (bits - 1) := (Nat.le_div_iff_mul_le hp).2 (by omega)
    have hb2 : n / 2 ^ (bits - 1) < 2 :=
      (Nat.div_lt_iff_lt_mul hp).2 (by rw [Nat.pow_succ] at h2; omega)
    have he : n / 2 ^ (bits - 1) = 1 := by omega
    simp [he]

/-- For n < 2^bits, int.bit_length() of n equals bits iff
    2^(bits-1) ≤ n. -/
theorem natBitLength_top_iff (n bits : Nat) (hb : 0 < bits)
    (hn : n < 2 ^ bits) : natBitLength n = bits ↔ 2 ^ (bits - 1) ≤ n := by
  rcases Nat.eq_zero_or_pos n with h0 | h0
  · subst h0
    have hp : 0 < 2 ^ (bits - 1) := Nat.pos_pow_of_pos _ (by norm_num)
    have hz : natBitLength 0 = 0 := rfl
    omega
  · have hne : n ≠ 0 := by omega
    have h1 : Nat.log2 n < bits := (Nat.log2_lt hne).2 hn
    simp only [natBitLength, if_neg hne]
    constructor
    · intro h
      exact (Nat.le_log2 hne).1 (by omega)
    · intro h
      have := (Nat.le_log2 hne).2 h
      omega

/-- The source's bit_length test agrees with the spec's top-bit test
    whenever the width is positive. -/
theorem wrap_eq_wrapSpec (value : Int) (bits : Nat) (signed : Bool)
    (hb : 0 < bits) : wrap value bits signed = wrapSpec value bits signed := by
  unfold wrap wrapSpec
  have hbase : (0 : Int) < 2 ^ bits := by positivity
  have h0 : 0 ≤ value.emod (2 ^ bits) := Int.emod_nonneg value (by omega)
  have h1 : value.emod (2 ^ bits) < 2 ^ bits := Int.emod_lt_of_pos value hbase
  have hcast : ((2 ^ bits : Nat) : Int) = (2 : Int) ^ bits := by push_cast; ring
  have htn : ((value.emod (2 ^ bits)).toNat : Int) = value.emod (2 ^ bits) :=
    Int.toNat_of_nonneg h0
  have hn : (value.emod (2 ^ bits)).toNat < 2 ^ bits := by omega
  have hcond : (natBitLength (value.emod (2 ^ bits)).toNat = bits) ↔
      ((value.emod (2 ^ bits)).toNat.testBit (bits - 1) = true) := by
    rw [natBitLength_top_iff _ _ hb hn, testBit_top_iff _ _ hb hn]
  by_cases hs : signed
  · by_cases hc : natBitLength (value.emod (2 ^ bits)).toNat = bits
    · simp [hs, hc, hcond.1 hc]
    · have hc2 : ¬ ((value.emod (2 ^ bits)).toNat.testBit (bits - 1) = true) :=
        fun h => hc (hcond.2 h)
      simp [hs, hc, hc2]
  · simp [hs]

set_option maxHeartbeats 1000000 in
/-- C2: constant folding of a foldable BinOp over two bit-width
    Consts computes the operation in arbitrary precision (Python
    operators, embedded as pyBinArith) and wraps it to the result
    type's width by the spec's rule — reduce mod 2^bits with a
    non-negative remainder, subtracting the base exactly when the
    type is signed and the top bit of the low-bits pattern is set —
    and the folded Const carries the original name, type and ssa_id
    and the decimal string of the wrapped integer. -/
theorem fold_instr_wraps_to_spec (a : Arena) (i : InstrId) (s x y : Instr)
    (o : Op) (xi yi : InstrId) (vx vy : String) (ix iy r : Int) (nb : Nat)
    (hs : a[i]? = some s) (hk : s.kind = .binop o xi yi)
    (ho : o.foldable = true)
    (hx : a[xi]? = some x) (hy : a[yi]? = some y)
    (hkx : x.kind = .const vx) (hky : y.kind = .const vy)
    (htx : x.ty.bitsTruthy = true) (hty : y.ty.bitsTruthy = true)
    (hix : pyInt vx = some ix) (hiy : pyInt vy = some iy)
    (hr : pyBinArith o ix iy = some r) (hnb : s.ty.bits = some nb) :
    foldInstr a i = some (some ⟨s.name, s.ty, s.ssaId, none, [], [],
      .const (pyStrInt (wrapSpec r nb s.ty.isSigned))⟩) := by
  rw [← wrap_eq_wrapSpec r nb s.ty.isSigned (Ty.bits_pos s.ty nb hnb)]
  simp [foldInstr, hs, hk, ho, hx, hy, hkx, hky, htx, hty, hix, hiy, hr, hnb]

theorem fold_instr_wraps_to_spec_witness :
    foldInstr foldWitA 2 = some (some ⟨"d", .u8, some 1, none, [], [],
      .const (pyStrInt (wrapSpec 129 8 (Ty.isSigned .u8)))⟩) :=
  fold_instr_wraps_to_spec foldWitA 2 _ _ _ .ADD 0 1 "100" "29" 100 29 129 8
    rfl rfl (by decide) rfl rfl rfl rfl (by decide) (by decide)
    (by decide) (by decide) (by decide) (by decide)

/-- C4 amended: on a φ whose input scan finds two distinct non-self
    inputs, remove_trivial_phi is a pure no-op returning the φ, so a
    second run goes through the identical no-op and running it twice
    equals running it once (when the first run removes a trivial φ,
    re-running instead raises ValueError — see the counterexample). -/
theorem remove_trivial_phi_nontrivial_idempotent
    (f : Nat) (p : InstrId) (st : SSAStore) (ir : IR) (s : Instr)
    (ins : List InstrId)
    (hs : ir.arena[p]? = some s) (hk : s.kind = .phi ins)
    (hscan : scanSame f ir.arena p ins none = .nontrivial) :
    ssaRun (f + 1) (.remTriv p) st ir = some (some p, st, ir) ∧
    (ssaRun (f + 1) (.remTriv p) st ir).bind
        (fun r => ssaRun (f + 1) (.remTriv p) r.2.1 r.2.2) =
      ssaRun (f + 1) (.remTriv p) st ir := by
  have h1 : ssaRun (f + 1) (.remTriv p) st ir = some (some p, st, ir) := by
    simp [ssaRun, hs, hk, hscan]
  exact ⟨h1, by rw [h1]; simp [h1]⟩

theorem remove_trivial_phi_nontrivial_idempotent_witness :
    ssaRun 4 (.remTriv 0) ntPhiSt ntPhiIR = some (some 0, ntPhiSt, ntPhiIR) ∧
    (ssaRun 4 (.remTriv 0) ntPhiSt ntPhiIR).bind
        (fun r => ssaRun 4 (.remTriv 0) r.2.1 r.2.2) =
      ssaRun 4 (.remTriv 0) ntPhiSt ntPhiIR :=
  remove_trivial_phi_nontrivial_idempotent 3 0 ntPhiSt ntPhiIR _ [1, 2]
    rfl rfl (by decide)

/-- find? over the entry replacement performed by setBlock. -/
theorem find_map_set (l : List (String × BlockData)) (bn a : String)
    (bd : BlockData) :
    (((l.map (fun p => if p.1 = bn then (bn, bd) else p)).find?
        (fun p => p.1 = a)).map (fun p => p.2)) =
      if a = bn then
        (((l.find? (fun p => p.1 = bn)).map (fun p => p.2)).map (fun _ => bd))
      else ((l.find? (fun p => p.1 = a)).map (fun p => p.2)) := by
  induction l with
  | nil => by_cases h : a = bn <;> simp [h]
  | cons p rest ih =>
    simp only [List.map_cons]
    by_cases hp : p.1 = bn
    · rw [if_pos hp]
      by_cases ha : a = bn
      · subst ha
        rw [List.find?_cons_of_pos _ (by simp),
          List.find?_cons_of_pos _ (by simpa using hp)]
        simp
      · have h2 : ¬ (p.1 = a) := by rw [hp]; exact fun h => ha h.symm
        rw [List.find?_cons_of_neg _ (by simpa using fun h => ha h.symm)]
        rw [ih]
        simp only [if_neg ha]
        rw [List.find?_cons_of_neg _ (by simpa using h2)]
    · rw [if_neg hp]
      by_cases hpa : p.1 = a
      · have ha : ¬ (a = bn) := fun h => hp (hpa.trans h)
        rw [List.find?_cons_of_pos _ (by simpa using hpa)]
        simp only [if_neg ha]
        rw [List.find?_cons_of_pos _ (by simpa using hpa)]
      · rw [List.find?_cons_of_neg _ (by simpa using hpa)]
        rw [ih]
        by_cases ha : a = bn
        · subst ha
          simp only [if_pos rfl]
          rw [List.find?_cons_of_neg _ (by simpa using hpa)]
        · simp only [if_neg ha]
          rw [List.find?_cons_of_neg _ (by simpa using hpa)]

/-- getBlock after setBlock: the written block if the name matches
    (and existed), the old lookup otherwise. -/
theorem getBlock_setBlock (ir : IR) (bn a : String) (bd : BlockData) :
    getBlock (setBlock ir bn bd) a =
      if a = bn then (getBlock ir bn).map (fun _ => bd) else getBlock ir a := by
  unfold getBlock setBlock
  simpa using find_map_set ir.blocks bn a bd

/-- Appending the edge pair (o to preds of s, s to succs of o), with
    either side optional provided the omitted side is already present,
    preserves CFG edge symmetry. -/
theorem edgeSymm_transfer (ir ir' : IR) (s o : String) (addP addS : Bool)
    (hchar : ∀ a, getBlock ir' a = (getBlock ir a).map (fun d =>
        { d with preds := d.preds ++ (if addP && decide (a = s) then [o] else []),
                 succs := d.succs ++ (if addS && decide (a = o) then [s] else []) }))
    (hsym : EdgeSymm ir)
    (hP : addP = false → ∀ sd, getBlock ir s = some sd → o ∈ sd.preds)
    (hS : addS = false → ∀ od, getBlock ir o = some od → s ∈ od.succs) :
    EdgeSymm ir' := by
  intro a b bda bdb ha hb
  rw [hchar] at ha hb
  rcases hga : getBlock ir a with _ | da
  · rw [hga] at ha; simp at ha
  rcases hgb : getBlock ir b with _ | db
  · rw [hgb] at hb; simp at hb
  rw [hga] at ha; rw [hgb] at hb
  simp only [Option.map_some', Option.some.injEq] at ha hb
  subst ha hb
  have hiff := hsym a b da db hga hgb
  have hmem : ∀ (x : String) (l : List String) (c : Bool) (y : String),
      (x ∈ l ++ (if c then [y] else [])) ↔ (x ∈ l ∨ (c = true ∧ x = y)) := by
    intro x l c y
    cases c <;> simp
  dsimp only
  rw [hmem, hmem]
  constructor
  · rintro (h | ⟨hc, rfl⟩)
    · exact Or.inl (hiff.1 h)
    · have hc2 : addP = true ∧ decide (b = s) = true := by simpa using hc
      have hbs : b = s := of_decide_eq_true hc2.2
      subst hbs
      cases addS
      · exact Or.inl (hS rfl da hga)
      · exact Or.inr ⟨by simp, rfl⟩
  · rintro (h | ⟨hc, rfl⟩)
    · exact Or.inl (hiff.2 h)
    · have hc2 : addS = true ∧ decide (a = o) = true := by simpa using hc
      have hao : a = o := of_decide_eq_true hc2.2
      subst hao
      cases addP
      · exact Or.inl (hP rfl db hgb)
      · exact Or.inr ⟨by simp, rfl⟩

/-- One Block.add_pred call preserves CFG edge symmetry. -/
theorem addPredB_symm (f : Nat) (ir ir' : IR) (s o : String)
    (h : addPredB (f + 2) ir s o = some ir') (hsym : EdgeSymm ir) :
    EdgeSymm ir' := by
  rcases hbd : getBlock ir s with _ | bd
  · simp [addPredB, hbd] at h
  rcases hod : getBlock (setBlock ir s { bd with preds := bd.preds ++ [o] }) o
      with _ | od
  · simp [addPredB, hbd, hod] at h
  have hodr := hod
  rw [getBlock_setBlock] at hodr
  by_cases hg : s ∈ od.succs
  · have hir : ir' = setBlock ir s { bd with preds := bd.preds ++ [o] } := by
      simp [addPredB, hbd, hod, hg] at h
      exact h.symm
    subst hir
    refine edgeSymm_transfer ir _ s o true false ?_ hsym
      (fun hcon => nomatch hcon) ?_
    · intro a
      rw [getBlock_setBlock]
      by_cases has : a = s
      · subst has
        rw [if_pos rfl, hbd]
        simp
      · rw [if_neg has]
        rcases getBlock ir a with _ | d
        · simp
        · cases d
          simp [has]
    · intro _ od0 h0
      by_cases hos : o = s
      · rw [if_pos hos] at hodr
        rw [hos, hbd] at h0
        cases h0
        rw [hbd] at hodr
        simp only [Option.map_some', Option.some.injEq] at hodr
        subst hodr
        simpa using hg
      · rw [if_neg hos, h0] at hodr
        cases hodr
        exact hg
  · have h2 : addSuccB (f + 1)
        (setBlock ir s { bd with preds := bd.preds ++ [o] }) o s = some ir' := by
      simpa [addPredB, hbd, hod, hg] using h
    rcases hod2 : getBlock (setBlock
        (setBlock ir s { bd with preds := bd.preds ++ [o] }) o
        { od with succs := od.succs ++ [s] }) s with _ | sd2
    · simp [addSuccB, hod, hod2] at h2
    have hod2r := hod2
    rw [getBlock_setBlock] at hod2r
    have hguard : o ∈ sd2.preds := by
      by_cases hso : s = o
      · rw [if_pos hso, hod] at hod2r
        simp only [Option.map_some', Option.some.injEq] at hod2r
        subst hod2r
        rw [if_pos (hso ▸ rfl : o = s)] at hodr
        rw [hbd] at hodr
        simp only [Option.map_some', Option.some.injEq] at hodr
        subst hodr
        simp
      · rw [if_neg hso, getBlock_setBlock, if_pos rfl, hbd] at hod2r
        simp only [Option.map_some', Option.some.injEq] at hod2r
        subst hod2r
        simp
    have hir : ir' = setBlock
        (setBlock ir s { bd with preds := bd.preds ++ [o] }) o
        { od with succs := od.succs ++ [s] } := by
      simp [addSuccB, hod, hod2, hguard] at h2
      exact h2.symm
    subst hir
    refine edgeSymm_transfer ir _ s o true true ?_ hsym
      (fun hcon => nomatch hcon) (fun hcon => nomatch hcon)
    intro a
    rw [getBlock_setBlock, getBlock_setBlock, getBlock_setBlock]
    by_cases hao : a = o
    · subst hao
      rw [if_pos rfl]
      by_cases hos : a = s
      · rw [if_pos hos] at hodr ⊢
        rw [hbd] at hodr
        simp only [Option.map_some', Option.some.injEq] at hodr
        subst hodr
        rw [hos, hbd]
        cases bd
        simp [hos]
      · rw [if_neg hos] at hodr ⊢
        rw [hodr]
        cases od
        simp [hos]
    · rw [if_neg hao]
      by_cases has : a = s
      · have hso : ¬ s = o := fun hc => hao (has.trans hc)
        rw [if_pos has, has, hbd]
        cases bd
        simp [has, hao, hso]
      · rw [if_neg has]
        rcases getBlock ir a with _ | d
        · simp
        · cases d
          simp [has, hao]

/-- One Block.add_succ call preserves CFG edge symmetry. -/
theorem addSuccB_symm (f : Nat) (ir ir' : IR) (s o : String)
    (h : addSuccB (f + 2) ir s o = some ir') (hsym : EdgeSymm ir) :
    EdgeSymm ir' := by
  rcases hbd : getBlock ir s with _ | bd
  · simp [addSuccB, hbd] at h
  rcases hod : getBlock (setBlock ir s { bd with succs := bd.succs ++ [o] }) o
      with _ | od
  · simp [addSuccB, hbd, hod] at h
  have hodr := hod
  rw [getBlock_setBlock] at hodr
  by_cases hg : s ∈ od.preds
  · have hir : ir' = setBlock ir s { bd with succs := bd.succs ++ [o] } := by
      simp [addSuccB, hbd, hod, hg] at h
      exact h.symm
    subst hir
    refine edgeSymm_transfer ir _ o s false true ?_ hsym ?_
      (fun hcon => nomatch hcon)
    · intro a
      rw [getBlock_setBlock]
      by_cases has : a = s
      · subst has
        rw [if_pos rfl, hbd]
        simp
      · rw [if_neg has]
        rcases getBlock ir a with _ | d
        · simp
        · cases d
          simp [has]
    · intro _ od0 h0
      by_cases hos : o = s
      · rw [if_pos hos] at hodr
        rw [hos, hbd] at h0
        cases h0
        rw [hbd] at hodr
        simp only [Option.map_some', Option.some.injEq] at hodr
        subst hodr
        simpa using hg
      · rw [if_neg hos, h0] at hodr
        cases hodr
        exact hg
  · have h2 : addPredB (f + 1)
        (setBlock ir s { bd with succs := bd.succs ++ [o] }) o s = some ir' := by
      simpa [addSuccB, hbd, hod, hg] using h
    rcases hod2 : getBlock (setBlock
        (setBlock ir s { bd with succs := bd.succs ++ [o] }) o
        { od with preds := od.preds ++ [s] }) s with _ | sd2
    · simp [addPredB, hod, hod2] at h2
    have hod2r := hod2
    rw [getBlock_setBlock] at hod2r
    have hguard : o ∈ sd2.succs := by
      by_cases hso : s = o
      · rw [if_pos hso, hod] at hod2r
        simp only [Option.map_some', Option.some.injEq] at hod2r
        subst hod2r
        rw [if_pos (hso ▸ rfl : o = s)] at hodr
        rw [hbd] at hodr
        simp only [Option.map_some', Option.some.injEq] at hodr
        subst hodr
        simp
      · rw [if_neg hso, getBlock_setBlock, if_pos rfl, hbd] at hod2r
        simp only [Option.map_some', Option.some.injEq] at hod2r
        subst hod2r
        simp
    have hir : ir' = setBlock
        (setBlock ir s { bd with succs := bd.succs ++ [o] }) o
        { od with preds := od.preds ++ [s] } := by
      simp [addPredB, hod, hod2, hguard] at h2
      exact h2.symm
    subst hir
    refine edgeSymm_transfer ir _ o s true true ?_ hsym
      (fun hcon => nomatch hcon) (fun hcon => nomatch hcon)
    intro a
    rw [getBlock_setBlock, getBlock_setBlock, getBlock_setBlock]
    by_cases hao : a = o
    · subst hao
      rw [if_pos rfl]
      by_cases hos : a = s
      · rw [if_pos hos] at hodr ⊢
        rw [hbd] at hodr
        simp only [Option.map_some', Option.some.injEq] at hodr
        subst hodr
        rw [hos, hbd]
        cases bd
        simp [hos]
      · rw [if_neg hos] at hodr ⊢
        rw [hodr]
        cases od
        simp [hos]
    · rw [if_neg hao]
      by_cases has : a = s
      · have hso : ¬ s = o := fun hc => hao (has.trans hc)
        rw [if_pos has, has, hbd]
        cases bd
        simp [has, hao, hso]
      · rw [if_neg has]
        rcases getBlock ir a with _ | d
        · simp
        · cases d
          simp [has, hao]

/-- C5 amended: CFG edge symmetry — a ∈ b.preds iff b ∈ a.succs, as
    membership — is preserved by every sequence of add_pred/add_succ
    calls: each call appends the forward entry and registers the
    reverse edge exactly when it is absent.  (Repeating a call does,
    however, append a duplicate forward entry, since only the reverse
    edge is guarded — see the counterexample.) -/
theorem cfg_edge_symmetry_preserved (f : Nat) (ops : List EdgeOp) :
    ∀ (ir ir' : IR), EdgeSymm ir → runEdgeOps (f + 2) ir ops = some ir' →
      EdgeSymm ir' := by
  induction ops with
  | nil =>
    intro ir ir' hsym h
    simp only [runEdgeOps, Option.some.injEq] at h
    exact h ▸ hsym
  | cons op rest ih =>
    intro ir ir' hsym h
    cases op with
    | pred s o =>
      simp only [runEdgeOps, Option.bind_eq_bind, Option.bind_eq_some] at h
      rcases h with ⟨ir1, h1, h2⟩
      exact ih ir1 ir' (addPredB_symm f ir ir1 s o h1 hsym) h2
    | succ s o =>
      simp only [runEdgeOps, Option.bind_eq_bind, Option.bind_eq_some] at h
      rcases h with ⟨ir1, h1, h2⟩
      exact ih ir1 ir' (addSuccB_symm f ir ir1 s o h1 hsym) h2

/-- An edge-free CFG is trivially symmetric. -/
theorem edgeWit_symm : EdgeSymm edgeWitIR := by
  intro a b bda bdb ha hb
  have hempty : ∀ x d, getBlock edgeWitIR x = some d → d = ⟨[], [], [], []⟩ := by
    intro x d hx
    simp only [getBlock, Option.map_eq_some'] at hx
    rcases hx with ⟨p, hp, hp2⟩
    have hm := List.mem_of_find?_eq_some hp
    simp only [edgeWitIR, List.mem_cons, List.not_mem_nil, or_false] at hm
    rcases hm with hm | hm <;> rw [← hp2, hm]
  rw [hempty a bda ha, hempty b bdb hb]
  simp

theorem cfg_edge_symmetry_preserved_witness :
    EdgeSymm ⟨[], [("a", ⟨[], [], [], ["b", "b"]⟩),
                   ("b", ⟨[], [], ["a", "a"], []⟩)]⟩ :=
  cfg_edge_symmetry_preserved 3
    [.pred "b" "a", .pred "b" "a", .succ "a" "b"] edgeWitIR
    ⟨[], [("a", ⟨[], [], [], ["b", "b"]⟩), ("b", ⟨[], [], ["a", "a"], []⟩)]⟩
    edgeWit_symm (by decide)

/-- Python string ≤ is total. -/
theorem charsLe_total (l1 l2 : List Char) :
    charsLe l1 l2 = true ∨ charsLe l2 l1 = true := by
  induction l1 generalizing l2 with
  | nil => exact Or.inl rfl
  | cons c cs ih =>
    cases l2 with
    | nil => exact Or.inr rfl
    | cons d ds =>
      by_cases hcd : c = d
      · subst hcd
        rcases ih ds with h | h
        · exact Or.inl (by simp [charsLe, h])
        · exact Or.inr (by simp [charsLe, h])
      · rcases lt_or_gt_of_ne hcd with h | h
        · exact Or.inl (by simp [charsLe, hcd, h])
        · have hdc : ¬ d = c := fun hc => hcd hc.symm
          exact Or.inr (by simp [charsLe, hdc]; exact h)

/-- Python string ≤ is antisymmetric. -/
theorem charsLe_antisymm (l1 l2 : List Char)
    (h1 : charsLe l1 l2 = true) (h2 : charsLe l2 l1 = true) : l1 = l2 := by
  induction l1 generalizing l2 with
  | nil =>
    cases l2 with
    | nil => rfl
    | cons d ds => simp [charsLe] at h2
  | cons c cs ih =>
    cases l2 with
    | nil => simp [charsLe] at h1
    | cons d ds =>
      by_cases hcd : c = d
      · subst hcd
        simp only [charsLe, if_pos rfl] at h1 h2
        rw [ih ds h1 h2]
      · have hdc : ¬ d = c := fun hc => hcd hc.symm
        simp only [charsLe, if_neg hcd, if_neg hdc, decide_eq_true_eq]
          at h1 h2
        exact absurd h2 (not_lt_of_gt h1)

theorem digitsVal_append (l : List Nat) (d : Nat) :
    digitsVal (l ++ [d]) = 10 * digitsVal l + d := by
  simp [digitsVal, List.foldl_append]
  ring

/-- The decimal renderer round-trips: its digits evaluate back to n. -/
theorem natDigsF_val (f n : Nat) (h : n ≤ f) :
    digitsVal (natDigsF f n) = n := by
  induction f generalizing n with
  | zero => simp [natDigsF, digitsVal]
  | succ f ih =>
    by_cases h10 : n < 10
    · simp [natDigsF, h10, digitsVal]
    · have hd : n / 10 ≤ f := by omega
      rw [natDigsF, if_neg h10, digitsVal_append, ih _ hd]
      omega

/-- Every rendered digit is a single decimal digit. -/
theorem natDigsF_lt10 (f n : Nat) (h : n ≤ f) :
    ∀ d ∈ natDigsF f n, d < 10 := by
  induction f generalizing n with
  | zero =>
    intro d hd
    simp [natDigsF] at hd
    omega
  | succ f ih =>
    intro d hd
    by_cases h10 : n < 10
    · simp [natDigsF, h10] at hd
      omega
    · rw [natDigsF, if_neg h10] at hd
      rcases List.mem_append.1 hd with hd | hd
      · exact ih (n / 10) (by omega) d hd
      · simp at hd
        omega

theorem natDigsF_ne_nil (f n : Nat) : natDigsF f n ≠ [] := by
  cases f with
  | zero => simp [natDigsF]
  | succ f =>
    rw [natDigsF]
    by_cases h10 : n < 10 <;> simp [h10]

/-- Rendering digits below ten as characters is injective. -/
theorem map_digit_inj (lm : List Nat) : ∀ (ln : List Nat),
    (∀ d ∈ lm, d < 10) → (∀ d ∈ ln, d < 10) →
    lm.map (fun d => Char.ofNat (48 + d)) =
      ln.map (fun d => Char.ofNat (48 + d)) → lm = ln := by
  induction lm with
  | nil =>
    intro ln _ _ hmap
    cases ln with
    | nil => rfl
    | cons e es => simp at hmap
  | cons d ds ih =>
    intro ln hm hn hmap
    cases ln with
    | nil => simp at hmap
    | cons e es =>
      simp only [List.map_cons, List.cons.injEq] at hmap
      have hchar : ∀ d1, d1 < 10 → ∀ d2, d2 < 10 →
          Char.ofNat (48 + d1) = Char.ofNat (48 + d2) → d1 = d2 := by decide
      have hde := hchar d (hm d (by simp)) e (hn e (by simp)) hmap.1
      subst hde
      rw [ih es (fun x hx => hm x (by simp [hx]))
        (fun x hx => hn x (by simp [hx])) hmap.2]

/-- str() is injective on naturals. -/
theorem pyStrNat_inj (m n : Nat) (h : pyStrNat m = pyStrNat n) : m = n := by
  have hmap : (natDigs m).map (fun d => Char.ofNat (48 + d)) =
      (natDigs n).map (fun d => Char.ofNat (48 + d)) := by
    have := congrArg String.data h
    simpa [pyStrNat] using this
  have hdig : natDigs m = natDigs n :=
    map_digit_inj (natDigs m) (natDigs n) (natDigsF_lt10 m m le_rfl)
      (natDigsF_lt10 n n le_rfl) hmap
  have := congrArg digitsVal hdig
  rw [natDigs, natDigs, natDigsF_val m m le_rfl,
    natDigsF_val n n le_rfl] at this
  exact this

/-- str() is injective on Python ints. -/
theorem pyStrInt_inj (m n : Int) (h : pyStrInt m = pyStrInt n) : m = n := by
  have hneg : ∀ k : Nat, ("-" ++ pyStrNat k).data = '-' :: (pyStrNat k).data := by
    intro k
    rfl
  have hhead : ∀ k : Nat, ∃ d rest, (pyStrNat k).data =
      Char.ofNat (48 + d) :: rest ∧ d < 10 := by
    intro k
    rcases hnn : natDigs k with _ | ⟨d, rest⟩ <;> rw [natDigs] at hnn
    · exact absurd hnn (natDigsF_ne_nil k k)
    · refine ⟨d, rest.map (fun d => Char.ofNat (48 + d)), ?_, ?_⟩
      · simp [pyStrNat, natDigs, hnn]
      · exact natDigsF_lt10 k k le_rfl d (by rw [hnn]; simp)
  have hne : ∀ d, d < 10 → Char.ofNat (48 + d) ≠ '-' := by decide
  cases m with
  | ofNat m' =>
    cases n with
    | ofNat n' =>
      simp only [pyStrInt] at h
      rw [pyStrNat_inj m' n' h]
    | negSucc n' =>
      simp only [pyStrInt] at h
      rcases hhead m' with ⟨d, rest, hd, hd10⟩
      have := congrArg String.data h
      rw [hd, hneg (n' + 1)] at this
      exact absurd (List.head_eq_of_cons_eq this) (hne d hd10)
  | negSucc m' =>
    cases n with
    | ofNat n' =>
      simp only [pyStrInt] at h
      rcases hhead n' with ⟨d, rest, hd, hd10⟩
      have := congrArg String.data h
      rw [hd, hneg (m' + 1)] at this
      exact absurd (List.head_eq_of_cons_eq this).symm (hne d hd10)
    | negSucc n' =>
      simp only [pyStrInt] at h
      have := congrArg String.data h
      rw [hneg (m' + 1), hneg (n' + 1)] at this
      have h2 : (pyStrNat (m' + 1)).data = (pyStrNat (n' + 1)).data :=
        List.tail_eq_of_cons_eq this
      have h3 : pyStrNat (m' + 1) = pyStrNat (n' + 1) :=
        congrArg String.mk (by simpa [pyStrNat] using h2)
      have h4 := pyStrNat_inj _ _ h3
      have h5 : m' = n' := by omega
      rw [h5]

theorem strLe_total (s t : String) : strLe s t = true ∨ strLe t s = true :=
  charsLe_total s.data t.data

theorem strLe_antisymm (s t : String) (h1 : strLe s t = true)
    (h2 : strLe t s = true) : s = t := by
  cases s with
  | mk d1 =>
    cases t with
    | mk d2 =>
      have h3 := charsLe_antisymm d1 d2 h1 h2
      rw [h3]

/-- C7 amended: because LVN passes the constructor arguments in the
    order (opcode_name, instr_type, is_commutative, params) against
    the signature (opcode_name, is_commutative, instr_type, params),
    the commutativity slot receives the instruction's Type — an enum
    member, always truthy — so the fingerprint's operand list is
    sorted by str() for every instruction, commutative or not; in
    particular op(a, b) and op(b, a) over any two operand value
    numbers produce the same fingerprint for every op, so LVN merges
    them (contrary to the claim — see the counterexample). -/
theorem lvn_value_params_always_sorted :
    (∀ (a : Arena) (opc : String) (t : Ty) (c : VParam) (ps : List VParam),
        mkValue a opc (.tyv t) c ps = ⟨opc, c, sortByStr a ps⟩)
    ∧ (∀ (a : Arena) (opc : String) (t : Ty) (c : VParam) (m n : Int),
        mkValue a opc (.tyv t) c [.int m, .int n] =
          mkValue a opc (.tyv t) c [.int n, .int m]) := by
  have hsorted : ∀ (a : Arena) (opc : String) (t : Ty) (c : VParam)
      (ps : List VParam),
      mkValue a opc (.tyv t) c ps = ⟨opc, c, sortByStr a ps⟩ := by
    intro a opc t c ps
    simp [mkValue, vpTruthy]
  refine ⟨hsorted, ?_⟩
  intro a opc t c m n
  rw [hsorted, hsorted]
  have hswap : sortByStr a [VParam.int m, VParam.int n] =
      sortByStr a [VParam.int n, VParam.int m] := by
    by_cases hmn : strLe (pyStrInt m) (pyStrInt n) = true
    · by_cases hnm : strLe (pyStrInt n) (pyStrInt m) = true
      · have heq := pyStrInt_inj m n (strLe_antisymm _ _ hmn hnm)
        rw [heq]
      · simp [sortByStr, insSorted, vpStr, hmn, hnm]
    · have hnm : strLe (pyStrInt n) (pyStrInt m) = true := by
        rcases strLe_total (pyStrInt m) (pyStrInt n) with h | h
        · exact absurd h hmn
        · exact h
      simp [sortByStr, insSorted, vpStr, hmn, hnm]
  rw [hswap]

theorem remove_trivial_phi_structural_equality_merge_witness :
    pyEq 5 (structEqPhiIR (some 0) (some 1) (some 0) (some 0) "u" .i8).arena
      0 1 = true ∧
    scanSame 4 (structEqPhiIR (some 0) (some 1) (some 0) (some 0) "u" .i8).arena
      2 [0, 1] none = .trivial (some 0) :=
  ⟨remove_trivial_phi_structural_equality_merge.1 4
      (structEqPhiIR (some 0) (some 1) (some 0) (some 0) "u" .i8).arena 0 1
      ⟨"c", .i32, some 0, some "bb0", [2], [], .const "9"⟩
      ⟨"c", .i32, some 1, some "bb0", [2], [], .const "9"⟩
      "9" "9" rfl rfl rfl rfl rfl rfl rfl,
   remove_trivial_phi_structural_equality_merge.2.1 4
      (structEqPhiIR (some 0) (some 1) (some 0) (some 0) "u" .i8).arena 2 0 1
      (by decide) (by decide)⟩

/-- getBlock only reads the block table. -/
theorem getBlock_of_blocks_eq (ir ir' : IR) (h : ir'.blocks = ir.blocks)
    (x : String) : getBlock ir' x = getBlock ir x := by
  unfold getBlock
  rw [h]

theorem blockMono_refl (sealed : List String) (ir : IR) :
    BlockMono sealed ir ir :=
  fun _ bd h => ⟨bd, h, rfl, fun _ _ => List.Sublist.refl _⟩

theorem blockMono_trans (sealed : List String) (ir1 ir2 ir3 : IR)
    (h1 : BlockMono sealed ir1 ir2) (h2 : BlockMono sealed ir2 ir3) :
    BlockMono sealed ir1 ir3 := by
  intro X bd h
  rcases h1 X bd h with ⟨bdm, hm, hpm, hphm⟩
  rcases h2 X bdm hm with ⟨bd', h', hp', hph'⟩
  refine ⟨bd', h', hp'.trans hpm, fun hX hlen => ?_⟩
  exact (hph' hX (by rw [hpm]; exact hlen)).trans (hphm hX hlen)

theorem blockMono_of_blocks_eq (sealed : List String) (ir ir' : IR)
    (h : ir'.blocks = ir.blocks) : BlockMono sealed ir ir' := by
  intro X bd hX
  exact ⟨bd, by rw [getBlock_of_blocks_eq ir ir' h]; exact hX, rfl,
    fun _ _ => List.Sublist.refl _⟩

theorem erasePF_sublist (p : α → Bool) (l : List α) :
    (erasePF p l).Sublist l := by
  induction l with
  | nil => simp [erasePF]
  | cons x xs ih =>
    rw [erasePF]
    by_cases hp : p x
    · simp [hp]
    · simp only [hp, if_false, Bool.false_eq_true]
      exact ih.cons₂ x

/-- Block.add_phi_instr only grows the φ-list of its target, which
    the invariant tolerates when the target is unsealed or has other
    than one predecessor. -/
theorem blockMono_addPhiInstrB (sealed : List String) (ir ir2 : IR)
    (bn : String) (i : InstrId) (h : addPhiInstrB ir bn i = some ir2)
    (hv : bn ∉ sealed ∨ ∀ bd0, getBlock ir bn = some bd0 →
      bd0.preds.length ≠ 1) :
    BlockMono sealed ir ir2 := by
  rcases hbd : getBlock ir bn with _ | bd
  · simp [addPhiInstrB, hbd] at h
  rcases hs : ir.arena[i]? with _ | s
  · simp [addPhiInstrB, hbd, hs] at h
  by_cases hphi : s.kind.isPhi
  · have hir : ir2 = setBlock { ir with arena := updI ir.arena i (fun w => { w with blk := some bn }) } bn { bd with phis := bd.phis ++ [i] } := by
      simp [addPhiInstrB, hbd, hs, hphi] at h
      exact h.symm
    subst hir
    intro X bd0 hX
    have hset := getBlock_setBlock { ir with arena := updI ir.arena i (fun w => { w with blk := some bn }) } bn X { bd with phis := bd.phis ++ [i] }
    have hge : ∀ x, getBlock { ir with arena := updI ir.arena i (fun w => { w with blk := some bn }) } x = getBlock ir x := fun x => getBlock_of_blocks_eq ir _ rfl x
    rw [hge] at hset
    by_cases hXbn : X = bn
    · subst hXbn
      rw [hbd] at hX
      cases hX
      refine ⟨{ bd with phis := bd.phis ++ [i] }, ?_, rfl, ?_⟩
      · rw [hset, if_pos rfl, hbd]
        rfl
      · intro hX1 hlen
        rcases hv with hv | hv
        · exact absurd hX1 hv
        · exact absurd hlen (hv bd hbd)
    · refine ⟨bd0, ?_, rfl, fun _ _ => List.Sublist.refl _⟩
      rw [hset, if_neg hXbn]
      exact hX
  · simp [addPhiInstrB, hbd, hs, hphi] at h

/-- Shrinking one block's φ-list preserves the invariant. -/
theorem blockMono_setBlock_phis (sealed : List String) (ir : IR)
    (bn : String) (bd : BlockData) (ph2 : List InstrId)
    (hbd : getBlock ir bn = some bd) (hsub : ph2.Sublist bd.phis) :
    BlockMono sealed ir (setBlock ir bn { bd with phis := ph2 }) := by
  intro X bd0 hX
  rw [getBlock_setBlock]
  by_cases hXbn : X = bn
  · subst hXbn
    rw [hbd] at hX
    cases hX
    exact ⟨{ bd with phis := ph2 }, by rw [if_pos rfl, hbd]; rfl, rfl,
      fun _ _ => hsub⟩
  · rw [if_neg hXbn]
    exact ⟨bd0, hX, rfl, fun _ _ => List.Sublist.refl _⟩

/-- SSA.new_variable only touches the variables table. -/
theorem newVariableS_sealed (a : Arena) (st : SSAStore) (i : InstrId)
    (bn : String) (a' : Arena) (st' : SSAStore)
    (h : newVariableS a st i bn = some (a', st')) :
    st'.sealed = st.sealed ∧ st'.incompletePhis = st.incompletePhis := by
  rcases hs : a[i]? with _ | s
  · simp [newVariableS, hs] at h
  by_cases ha : s.kind.isAssignment
  · rcases hv : aGet st.vars s.name with _ | d
    · simp [newVariableS, hs, ha, hv] at h
      rw [← h.2]
      exact ⟨rfl, rfl⟩
    · simp [newVariableS, hs, ha, hv] at h
      rw [← h.2]
      exact ⟨rfl, rfl⟩
  · simp [newVariableS, hs, ha] at h

theorem pyEraseE_sublist (f : Nat) (a : Arena) (l : List InstrId)
    (x : InstrId) (ph2 : List InstrId) (h : pyEraseE f a l x = some ph2) :
    ph2.Sublist l := by
  unfold pyEraseE at h
  by_cases hm : pyMem f a l x = true
  · rw [if_pos hm] at h
    cases h
    exact erasePF_sublist _ _
  · rw [if_neg hm] at h
    cases h

/-- Every SSA-builder run leaves the sealed set unchanged and only
    evolves block data monotonically: preds are untouched, and the
    φ-list of a sealed single-predecessor block never grows. -/
theorem ssaRun_blockMono (f : Nat) : ∀ (c : SsaCall) (st : SSAStore)
    (ir : IR) (r : Option InstrId) (st' : SSAStore) (ir' : IR),
    ssaRun f c st ir = some (r, st', ir') →
    st'.sealed = st.sealed ∧ BlockMono st.sealed ir ir' := by
  induction f with
  | zero =>
    intro c st ir r st' ir' h
    simp [ssaRun] at h
  | succ f ih =>
    intro c st ir r st' ir' h
    cases c with
    | grd v bn =>
      simp only [ssaRun, Option.bind_eq_bind, Option.bind_eq_some] at h
      rcases h with ⟨d, hd, h⟩
      rcases hcd : aGet d.currentDef bn with _ | e
      · rw [hcd] at h
        dsimp only at h
        exact ih _ _ _ _ _ _ h
      · rw [hcd] at h
        dsimp only at h
        simp only [Option.pure_def, Option.some.injEq, Prod.mk.injEq] at h
        obtain ⟨h1, h2, h3⟩ := h
        subst h2
        subst h3
        exact ⟨rfl, blockMono_refl _ _⟩
    | grdRec v bn =>
      simp only [ssaRun] at h
      by_cases hseal : bn ∈ st.sealed
      · rw [if_neg (by simpa using hseal)] at h
        simp only [Option.bind_eq_bind, Option.bind_eq_some] at h
        rcases h with ⟨bd, hbd, h⟩
        rcases hp : bd.preds with _ | ⟨p, rest0⟩
        · rw [hp] at h
          dsimp only at h
          simp only [Option.bind_eq_bind, Option.bind_eq_some] at h
          rcases h with ⟨d, hd, h⟩
          rcases h with ⟨ir2, hir2, h⟩
          rcases h with ⟨⟨a3, st3⟩, hnv, h⟩
          dsimp only at h
          have m1 := ih _ _ _ _ _ _ h
          have hs3 := (newVariableS_sealed _ _ _ _ _ _ hnv).1
          refine ⟨m1.1.trans hs3, ?_⟩
          have hmono1 : BlockMono st.sealed ir { ir with arena := ir.arena ++ [{ mkPhi v with ssaId := some d.count }] } := blockMono_of_blocks_eq _ _ _ rfl
          have hg1 : getBlock { ir with arena := ir.arena ++ [{ mkPhi v with ssaId := some d.count }] } bn = getBlock ir bn := getBlock_of_blocks_eq ir _ rfl bn
          have hmono2 : BlockMono st.sealed { ir with arena := ir.arena ++ [{ mkPhi v with ssaId := some d.count }] } ir2 := by
            refine blockMono_addPhiInstrB _ _ _ _ _ hir2 (Or.inr ?_)
            intro bd0 hb0
            rw [hg1, hbd] at hb0
            cases hb0
            rw [hp]
            simp
          have hmono3 : BlockMono st.sealed ir2 { ir2 with arena := a3 } := blockMono_of_blocks_eq _ _ _ rfl
          have hmono4 : BlockMono st.sealed { ir2 with arena := a3 } ir' := hs3 ▸ m1.2
          exact blockMono_trans _ _ _ _ hmono1 (blockMono_trans _ _ _ _
            hmono2 (blockMono_trans _ _ _ _ hmono3 hmono4))
        · rcases rest0 with _ | ⟨q, rest⟩
          · rw [hp] at h
            dsimp only at h
            exact ih _ _ _ _ _ _ h
          · rw [hp] at h
            dsimp only at h
            simp only [Option.bind_eq_bind, Option.bind_eq_some] at h
            rcases h with ⟨d, hd, h⟩
            rcases h with ⟨ir2, hir2, h⟩
            rcases h with ⟨⟨a3, st3⟩, hnv, h⟩
            dsimp only at h
            have m1 := ih _ _ _ _ _ _ h
            have hs3 := (newVariableS_sealed _ _ _ _ _ _ hnv).1
            refine ⟨m1.1.trans hs3, ?_⟩
            have hmono1 : BlockMono st.sealed ir { ir with arena := ir.arena ++ [{ mkPhi v with ssaId := some d.count }] } := blockMono_of_blocks_eq _ _ _ rfl
            have hg1 : getBlock { ir with arena := ir.arena ++ [{ mkPhi v with ssaId := some d.count }] } bn = getBlock ir bn := getBlock_of_blocks_eq ir _ rfl bn
            have hmono2 : BlockMono st.sealed { ir with arena := ir.arena ++ [{ mkPhi v with ssaId := some d.count }] } ir2 := by
              refine blockMono_addPhiInstrB _ _ _ _ _ hir2 (Or.inr ?_)
              intro bd0 hb0
              rw [hg1, hbd] at hb0
              cases hb0
              rw [hp]
              simp
            have hmono3 : BlockMono st.sealed ir2 { ir2 with arena := a3 } := blockMono_of_blocks_eq _ _ _ rfl
            have hmono4 : BlockMono st.sealed { ir2 with arena := a3 } ir' := hs3 ▸ m1.2
            exact blockMono_trans _ _ _ _ hmono1 (blockMono_trans _ _ _ _
              hmono2 (blockMono_trans _ _ _ _ hmono3 hmono4))
      · rw [if_pos (by simpa using hseal)] at h
        simp only [Option.bind_eq_bind, Option.bind_eq_some] at h
        rcases h with ⟨ir2, hir2, h⟩
        rcases h with ⟨⟨a3, st3⟩, hnv, h⟩
        dsimp only at h
        simp only [Option.pure_def, Option.some.injEq, Prod.mk.injEq] at h
        obtain ⟨h1, h2, h3⟩ := h
        subst h2
        subst h3
        have hs3 := (newVariableS_sealed _ _ _ _ _ _ hnv).1
        refine ⟨hs3, ?_⟩
        have hmono1 : BlockMono st.sealed ir { ir with arena := ir.arena ++ [mkPhi v] } := blockMono_of_blocks_eq _ _ _ rfl
        have hmono2 : BlockMono st.sealed { ir with arena := ir.arena ++ [mkPhi v] } ir2 := blockMono_addPhiInstrB _ _ _ _ _ hir2 (Or.inl hseal)
        have hmono3 : BlockMono st.sealed ir2 { ir2 with arena := a3 } := blockMono_of_blocks_eq _ _ _ rfl
        exact blockMono_trans _ _ _ _ hmono1 (blockMono_trans _ _ _ _
          hmono2 hmono3)
    | addPhiOps v p =>
      simp only [ssaRun, Option.bind_eq_bind, Option.bind_eq_some] at h
      rcases h with ⟨s, hs, h⟩
      rcases h with ⟨bn, hbn, h⟩
      rcases h with ⟨bd, hbd, h⟩
      rcases h with ⟨⟨r1, st1, ir1⟩, hrun1, h⟩
      dsimp only at h
      have m1 := ih _ _ _ _ _ _ hrun1
      have m2 := ih _ _ _ _ _ _ h
      refine ⟨m2.1.trans m1.1, blockMono_trans _ _ _ _ m1.2 ?_⟩
      rw [← m1.1]
      exact m2.2
    | phiLoop v p preds =>
      cases preds with
      | nil =>
        simp only [ssaRun, Option.pure_def, Option.some.injEq,
          Prod.mk.injEq] at h
        obtain ⟨h1, h2, h3⟩ := h
        subst h2
        subst h3
        exact ⟨rfl, blockMono_refl _ _⟩
      | cons q rest =>
        simp only [ssaRun, Option.bind_eq_bind, Option.bind_eq_some] at h
        rcases h with ⟨⟨r1, st1, ir1⟩, hrun1, h⟩
        dsimp only at h
        rcases h with ⟨rid, hrid, h⟩
        rcases h with ⟨a2, ha2, h⟩
        have m1 := ih _ _ _ _ _ _ hrun1
        have m2 := ih _ _ _ _ _ _ h
        refine ⟨m2.1.trans m1.1, ?_⟩
        refine blockMono_trans _ _ _ _ m1.2 ?_
        have hmono2 : BlockMono st1.sealed ir1 { ir1 with arena := a2 } := blockMono_of_blocks_eq _ _ _ rfl
        have hmono2' : BlockMono st.sealed ir1 { ir1 with arena := a2 } := m1.1 ▸ hmono2
        refine blockMono_trans _ _ _ _ hmono2' ?_
        rw [← m1.1]
        exact m2.2
    | remTriv p =>
      simp only [ssaRun, Option.bind_eq_bind, Option.bind_eq_some] at h
      rcases h with ⟨s, hs, h⟩
      cases hk : s.kind
      case phi ins =>
        rw [hk] at h
        dsimp only at h
        rcases hscan : scanSame f ir.arena p ins none with _ | same
        · rw [hscan] at h
          dsimp only at h
          simp only [Option.pure_def, Option.some.injEq, Prod.mk.injEq] at h
          obtain ⟨h1, h2, h3⟩ := h
          subst h2
          subst h3
          exact ⟨rfl, blockMono_refl _ _⟩
        · rw [hscan] at h
          dsimp only at h
          simp only [Option.bind_eq_bind, Option.bind_eq_some] at h
          rcases h with ⟨bn, hbn, h⟩
          rcases h with ⟨bd, hbd, h⟩
          rcases h with ⟨ph2, hph2, h⟩
          rcases h with ⟨a2, ha2, h⟩
          rcases h with ⟨d, hdv, h⟩
          rcases h with ⟨⟨r2, st2, ir2⟩, hrun2, h⟩
          dsimp only at h
          simp only [Option.pure_def, Option.some.injEq, Prod.mk.injEq] at h
          obtain ⟨h1, h2, h3⟩ := h
          subst h2
          subst h3
          have m2 := ih _ _ _ _ _ _ hrun2
          refine ⟨m2.1, ?_⟩
          refine blockMono_trans _ _ _ _
            (blockMono_setBlock_phis _ _ _ _ _ hbd
              (pyEraseE_sublist _ _ _ _ _ hph2)) ?_
          refine blockMono_trans _ _ _ _ (blockMono_of_blocks_eq _ _ _ rfl) ?_
          exact m2.2
      all_goals rw [hk] at h
      all_goals simp at h
    | remTrivUsers us =>
      cases us with
      | nil =>
        simp only [ssaRun, Option.pure_def, Option.some.injEq,
          Prod.mk.injEq] at h
        obtain ⟨h1, h2, h3⟩ := h
        subst h2
        subst h3
        exact ⟨rfl, blockMono_refl _ _⟩
      | cons u rest =>
        simp only [ssaRun, Option.bind_eq_bind, Option.bind_eq_some] at h
        rcases h with ⟨s, hs, h⟩
        by_cases hphi : s.kind.isPhi = true
        · rw [if_pos hphi] at h
          simp only [Option.bind_eq_bind, Option.bind_eq_some] at h
          rcases h with ⟨⟨r1, st1, ir1⟩, hrun1, h⟩
          dsimp only at h
          have m1 := ih _ _ _ _ _ _ hrun1
          have m2 := ih _ _ _ _ _ _ h
          refine ⟨m2.1.trans m1.1, blockMono_trans _ _ _ _ m1.2 ?_⟩
          rw [← m1.1]
          exact m2.2
        · rw [if_neg hphi] at h
          exact ih _ _ _ _ _ _ h

/-- C3: get_reaching_def returns the block's local definition when
    one exists (leaving builder state and graph untouched); otherwise
    on a sealed block with exactly one predecessor it delegates to
    the predecessor's reaching definition, and however that recursion
    runs, the block keeps its predecessor list and gains no
    φ-instruction. -/
theorem get_reaching_def_local_and_single_pred :
    (∀ (f : Nat) (v bn : String) (st : SSAStore) (ir : IR) (d : SSADef)
        (e : Option InstrId), aGet st.vars v = some d →
        aGet d.currentDef bn = some e →
        ssaRun (f + 1) (.grd v bn) st ir = some (e, st, ir))
    ∧ (∀ (f : Nat) (v bn : String) (st : SSAStore) (ir : IR) (d : SSADef)
        (bd : BlockData) (p : String), aGet st.vars v = some d →
        aGet d.currentDef bn = none → bn ∈ st.sealed →
        getBlock ir bn = some bd → bd.preds = [p] →
        ssaRun (f + 2) (.grd v bn) st ir = ssaRun f (.grd v p) st ir ∧
        ∀ (r : Option InstrId) (st' : SSAStore) (ir' : IR),
          ssaRun f (.grd v p) st ir = some (r, st', ir') →
          ∃ bd', getBlock ir' bn = some bd' ∧ bd'.preds = [p] ∧
            bd'.phis.Sublist bd.phis) := by
  constructor
  · intro f v bn st ir d e hd hcd
    simp [ssaRun, hd, hcd]
  · intro f v bn st ir d bd p hd hcd hseal hbd hp
    constructor
    · simp [ssaRun, hd, hcd, hseal, hbd, hp]
    · intro r st' ir' hrun
      have minv := (ssaRun_blockMono f (.grd v p) st ir r st' ir' hrun).2
      rcases minv bn bd hbd with ⟨bd', hbd', hp', hph⟩
      exact ⟨bd', hbd', by rw [hp', hp],
        hph hseal (by rw [hp]; rfl)⟩

theorem get_reaching_def_local_and_single_pred_witness :
    ssaRun 5 (.grd "x" "b0") grdWitSt grdWitIR =
      some (some 0, grdWitSt, grdWitIR) ∧
    ssaRun 6 (.grd "x" "b1") grdWitSt grdWitIR =
      ssaRun 4 (.grd "x" "b0") grdWitSt grdWitIR ∧
    (∃ bd', getBlock grdWitIR "b1" = some bd' ∧ bd'.preds = ["b0"] ∧
      bd'.phis.Sublist (⟨[], [], ["b0"], []⟩ : BlockData).phis) :=
  ⟨get_reaching_def_local_and_single_pred.1 4 "x" "b0" grdWitSt grdWitIR
      ⟨0, [("b0", some 0)]⟩ (some 0) rfl rfl,
   (get_reaching_def_local_and_single_pred.2 4 "x" "b1" grdWitSt grdWitIR
      ⟨0, [("b0", some 0)]⟩ ⟨[], [], ["b0"], []⟩ "b0" rfl rfl (by decide)
      rfl rfl).1,
   (get_reaching_def_local_and_single_pred.2 4 "x" "b1" grdWitSt grdWitIR
      ⟨0, [("b0", some 0)]⟩ ⟨[], [], ["b0"], []⟩ "b0" rfl rfl (by decide)
      rfl rfl).2 (some 0) grdWitSt grdWitIR (by decide)⟩
